import Mathlib

/-!
Verification development for the page2md repository: a shallow embedding of
the content-extraction and HTML-to-Markdown conversion core (index.js),
together with theorems settling the specification's claims.

Strings are modelled as `List Char`.  Each JavaScript regular-expression
replacement pass of `cleanMarkdown` is embedded as a left-to-right scan that
mirrors the leftmost-match, greedy-quantifier, global-replace semantics of
`String.prototype.replace` for the particular pattern.
-/

set_option maxHeartbeats 1000000

/-- Str is the character-list model of JavaScript strings. -/
abbrev Str := List Char

/-- The backtick character (code point 96). -/
def tickChar : Char := Char.ofNat 96

namespace Page2Md

/-- Length of `dropWhile` never exceeds the original length (a termination
measure used by the scan definitions below). -/
theorem dropWhileLen (p : Char → Bool) : ∀ l : Str, (l.dropWhile p).length ≤ l.length := by
  intro l
  induction l with
  | nil => simp
  | cons c cs ih =>
    rw [List.dropWhile_cons]
    by_cases h : p c
    · simp only [h, if_true, List.length_cons]
      omega
    · simp [h]

/-! ## The Markdown Normalizer: `cleanMarkdown` (index.js lines 289-299) -/

/-- Pass 1, `markdown.replace(/\n{3,}/g, "\n\n")`: every maximal run of three
or more newlines is collapsed to exactly two. -/
def pass1 : Str → Str
  | [] => []
  | c :: rest =>
    if h : (c :: rest).take 3 = "\n\n\n".data then
      "\n\n".data ++ pass1 ((c :: rest).dropWhile (· = '\n'))
    else
      c :: pass1 rest
termination_by l => l.length
decreasing_by
  · have h1 : c = '\n' := by
      simp [List.take] at h
      exact h.1
    have h2 : ((c :: rest).dropWhile (· = '\n')) = rest.dropWhile (· = '\n') := by
      rw [List.dropWhile_cons_of_pos]
      simp [h1]
    rw [h2]
    have := dropWhileLen (fun x => decide (x = '\n')) rest
    simp only [List.length_cons]
    omega
  · simp

/-- Pass 2, `markdown.replace(/(\n{2,})(```)/g, "\n$2")`: a run of two or
more newlines immediately followed by three backticks becomes a single
newline followed by the backticks. -/
def pass2 : Str → Str
  | [] => []
  | c :: rest =>
    if h : (c :: rest).take 2 = "\n\n".data ∧
        ((c :: rest).dropWhile (· = '\n')).take 3 = "```".data then
      '\n' :: "```".data ++ pass2 (((c :: rest).dropWhile (· = '\n')).drop 3)
    else
      c :: pass2 rest
termination_by l => l.length
decreasing_by
  · have h1 : c = '\n' := by
      have := h.1
      simp [List.take] at this
      exact this.1
    have h2 : ((c :: rest).dropWhile (· = '\n')) = rest.dropWhile (· = '\n') := by
      rw [List.dropWhile_cons_of_pos]
      simp [h1]
    rw [h2]
    have := dropWhileLen (fun x => decide (x = '\n')) rest
    have h3 := List.length_drop 3 (rest.dropWhile (· = '\n'))
    simp only [List.length_cons]
    omega
  · simp

/-- Pass 3, `markdown.replace(/(```)(\n{2,})/g, "$1\n")`: three backticks
immediately followed by a run of two or more newlines keep only a single
newline after the backticks. -/
def pass3 : Str → Str
  | [] => []
  | c :: rest =>
    if (c :: rest).take 5 = "```\n\n".data then
      "```\n".data ++ pass3 ((rest.drop 2).dropWhile (· = '\n'))
    else
      c :: pass3 rest
termination_by l => l.length
decreasing_by
  · simp only [List.length_cons]
    have h1 := dropWhileLen (fun x => decide (x = '\n')) (rest.drop 2)
    have h2 := List.length_drop 2 rest
    omega
  · simp

/-- Pass 4, `markdown.replace(/(\n{2,})([-*] )/g, "\n$2")`: a run of two or
more newlines immediately followed by a list marker (`-` or `*` plus a
space) becomes a single newline followed by the marker. -/
def pass4 : Str → Str
  | [] => []
  | c :: rest =>
    if h : (c :: rest).take 2 = "\n\n".data ∧
        (((c :: rest).dropWhile (· = '\n')).take 2 = "- ".data ∨
         ((c :: rest).dropWhile (· = '\n')).take 2 = "* ".data) then
      '\n' :: ((c :: rest).dropWhile (· = '\n')).take 2 ++
        pass4 (((c :: rest).dropWhile (· = '\n')).drop 2)
    else
      c :: pass4 rest
termination_by l => l.length
decreasing_by
  · have h1 : c = '\n' := by
      have := h.1
      simp [List.take] at this
      exact this.1
    have h2 : ((c :: rest).dropWhile (· = '\n')) = rest.dropWhile (· = '\n') := by
      rw [List.dropWhile_cons_of_pos]
      simp [h1]
    rw [h2]
    have := dropWhileLen (fun x => decide (x = '\n')) rest
    have h3 := List.length_drop 2 (rest.dropWhile (· = '\n'))
    simp only [List.length_cons]
    omega
  · simp

/-- Pass 5, `markdown.replace(/([-*].+)(\n{2,})/g, "$1\n")`: a list marker
followed by at least one non-newline character and then a run of two or more
newlines keeps the marker and line content but only a single newline. -/
def pass5 : Str → Str
  | [] => []
  | c :: rest =>
    if h : (c = '-' ∨ c = '*') ∧ rest.takeWhile (· ≠ '\n') ≠ [] ∧
        (rest.dropWhile (· ≠ '\n')).take 2 = "\n\n".data then
      c :: rest.takeWhile (· ≠ '\n') ++
        '\n' :: pass5 ((rest.dropWhile (· ≠ '\n')).dropWhile (· = '\n'))
    else
      c :: pass5 rest
termination_by l => l.length
decreasing_by
  · have h1 := dropWhileLen (fun x => decide (x = '\n'))
      (rest.dropWhile (· ≠ '\n'))
    have h2 := dropWhileLen (fun x => decide (x ≠ '\n')) rest
    simp only [List.length_cons]
    omega
  · simp

/-- One unescaping pass `markdown.replace(/\\t/g, "t")` for a single target
character `t` (used with a backtick, `#`, and `-`): each occurrence of a
backslash immediately followed by `t` is replaced by the bare `t`. -/
def unescape (t : Char) : Str → Str
  | [] => []
  | '\\' :: c :: rest =>
    if c = t then t :: unescape t rest
    else '\\' :: unescape t (c :: rest)
  | c :: rest => c :: unescape t rest

/-- The Markdown Normalizer `cleanMarkdown` (index.js lines 289-299): the
five newline-normalization passes followed by the three unescaping passes
(backtick, then `#`, then `-`), applied in the source's order. -/
def cleanMarkdown (markdown : Str) : Str :=
  unescape '-' (unescape '#' (unescape tickChar
    (pass5 (pass4 (pass3 (pass2 (pass1 markdown)))))))


/-! ## String utilities shared by the DOM model and the serializer -/

/-- Whether `pat` is a prefix of `l` (the shape test used in scans). -/
def strStarts (pat l : Str) : Bool := l.take pat.length == pat

/-- JavaScript `String.prototype.includes`: substring containment. -/
def hasSubB (pat : Str) : Str → Bool
  | [] => pat == []
  | c :: rest => strStarts pat (c :: rest) || hasSubB pat rest

/-- Substring containment as a proposition. -/
def hasSub (pat l : Str) : Prop := ∃ a b, l = a ++ pat ++ b

/-- JavaScript whitespace (the ASCII part relevant here), used by `trim`
and by class-attribute tokenization. -/
def jsWs (c : Char) : Bool := c = ' ' ∨ c = '\t' ∨ c = '\n' ∨ c = '\r'

/-- Accumulator-style whitespace tokenizer: `cur` holds the reversed
characters of the token currently being read. -/
def splitClassesAux (cur : Str) : Str → List Str
  | [] => if cur = [] then [] else [cur.reverse]
  | c :: rest =>
    if jsWs c then
      if cur = [] then splitClassesAux [] rest
      else cur.reverse :: splitClassesAux [] rest
    else splitClassesAux (c :: cur) rest

/-- Whitespace-separated tokens of a class attribute value: the class list
a CSS class selector tests membership of. -/
def splitClasses (l : Str) : List Str := splitClassesAux [] l

/-! ## The DOM model

HTML documents are modelled as trees of text nodes and element nodes.  An
element carries its tag name (lower-case, as HTML parsing normalizes tags),
its raw `class` attribute string (the DOM `className` property) and its
other attributes.  A parsed document is a `head` node list together with an
optional `body` element (`document.body` is `null` exactly when `body` is
`none`). -/

inductive Node where
  | text (s : String)
  | elem (tag : String) (className : String)
      (attrs : List (String × String)) (children : List Node)

/-- Children of a node (text nodes have none). -/
def childrenOf : Node → List Node
  | .text _ => []
  | .elem _ _ _ cs => cs

/-- Tag of a node; text nodes get the empty tag. -/
def tagOf : Node → String
  | .text _ => ""
  | .elem t _ _ _ => t

/-- The raw `className` string of a node. -/
def classOf : Node → String
  | .text _ => ""
  | .elem _ c _ _ => c

/-- Whether a node is an element. -/
def isElem : Node → Bool
  | .text _ => false
  | .elem _ _ _ _ => true

mutual
/-- All proper descendants of a node in document (pre-)order, as produced
by `querySelectorAll` style traversal. -/
def desc : Node → List Node
  | .text _ => []
  | .elem _ _ _ cs => descList cs

/-- All nodes of a forest together with their descendants, in document
order. -/
def descList : List Node → List Node
  | [] => []
  | n :: ns => n :: desc n ++ descList ns
end

/-- The class tokens of a node's `className`. -/
def classTokens (cls : String) : List Str := splitClasses cls.data

/-- The CSS selectors the source uses: a class selector `.name`, a tag
selector `name`, and the attribute selector `meta[property="og:title"]`
generalized as tag plus exact attribute match. -/
inductive Sel where
  | cls (name : String)
  | tag (name : String)
  | tagAttr (tag attr value : String)
deriving DecidableEq, Repr

/-- Attribute lookup, `getAttribute`: `none` when the attribute is absent. -/
def getAttr (n : Node) (name : String) : Option String :=
  match n with
  | .text _ => none
  | .elem _ _ attrs _ => (attrs.find? (fun p => p.1 = name)).map (·.2)

/-- Whether a node matches a selector. -/
def matchesSel (s : Sel) (n : Node) : Bool :=
  match s with
  | .cls name => isElem n ∧ name.data ∈ classTokens (classOf n)
  | .tag name => tagOf n = name
  | .tagAttr t a v => tagOf n = t ∧ getAttr n a = some v

/-- `querySelectorAll` scoped to the proper descendants of a node. -/
def qsa (s : Sel) (n : Node) : List Node := (desc n).filter (matchesSel s)

/-- A parsed document: nodes of the `head` and the optional `body`
element.  `document.body === null` is modelled by `body = none`. -/
structure Document where
  headNodes : List Node
  body : Option Node

/-- All nodes of a document in document order (head before body, each node
before its descendants), the search space of `document.querySelector`. -/
def docNodes (d : Document) : List Node :=
  descList d.headNodes ++ (match d.body with
    | some b => b :: desc b
    | none => [])

/-- `document.querySelector`: first matching node in document order. -/
def docQS (d : Document) (s : Sel) : Option Node :=
  (docNodes d).find? (matchesSel s)

mutual
/-- The `textContent` of a node: concatenation of all descendant text. -/
def textContent : Node → String
  | .text s => s
  | .elem _ _ _ cs => textContentList cs

/-- `textContent` of a node list. -/
def textContentList : List Node → String
  | [] => ""
  | n :: ns => textContent n ++ textContentList ns
end

/-- JavaScript `a || b` on a string-or-undefined left operand: the empty
string and `undefined` (`none`) both fall through to `b`. -/
def jsOr (a : Option String) (b : String) : String :=
  match a with
  | some s => if s = "" then b else s
  | none => b

/-- Title resolution of `extractContent` (index.js lines 137-140):
`og:title` meta content, else first `h1` text, else `"Untitled"`, with
JavaScript `||` falsy semantics (an empty string falls through).  A found
meta element's `.content` property reflects the attribute and is `""` when
the attribute is absent. -/
def resolveTitle (d : Document) : String :=
  jsOr ((docQS d (.tagAttr "meta" "property" "og:title")).map
      (fun m => (getAttr m "content").getD ""))
    (jsOr ((docQS d (.tag "h1")).map textContent) "Untitled")

/-- Content-region selection of `extractContent` (index.js lines 142-150):
try `.doc-content`, then `article`, then `main`, then `.content`; fall back
to `document.body` (which may be `null`). -/
def selectRegion (d : Document) : Option Node :=
  match docQS d (.cls "doc-content") with
  | some e => some e
  | none =>
    match docQS d (.tag "article") with
    | some e => some e
    | none =>
      match docQS d (.tag "main") with
      | some e => some e
      | none =>
        match docQS d (.cls "content") with
        | some e => some e
        | none => d.body

/-- The Boilerplate Selector Set, `elementsToRemove` (index.js lines
154-167), in source order. -/
def elementsToRemove : List Sel :=
  [.cls "header-anchor", .cls "sidebar", .cls "toc", .cls "footer",
   .cls "edit-link", .tag "nav", .tag "script", .tag "style",
   .tag "iframe", .cls "page-meta", .cls "ads-container",
   .cls "comment-section"]

mutual
/-- Removal of every descendant matching a selector (the net effect of
`querySelectorAll(selector)` followed by `el.remove()` on each match: a
match nested inside another match is detached together with it).  The node
itself is not tested, matching `querySelectorAll`'s proper-descendant
scope. -/
def removeMatching (s : Sel) : Node → Node
  | .text t => .text t
  | .elem tag cls attrs cs => .elem tag cls attrs (removeMatchingList s cs)

/-- Removal over a child list: matching children are dropped, the rest are
cleaned recursively. -/
def removeMatchingList (s : Sel) : List Node → List Node
  | [] => []
  | n :: ns =>
    if matchesSel s n then removeMatchingList s ns
    else removeMatching s n :: removeMatchingList s ns
end

/-- Sequential removal for every selector of the Boilerplate Selector Set
(the `elementsToRemove.forEach` loop, index.js lines 169-172). -/
def removeBoilerplate (n : Node) : Node :=
  elementsToRemove.foldl (fun acc s => removeMatching s acc) n

mutual
/-- HTML serialization of a node, modelling the DOM `outerHTML`. -/
def htmlOfNode : Node → String
  | .text s => s
  | .elem tag cls attrs cs =>
    "<" ++ tag ++
      (if cls = "" then "" else " class=\x22" ++ cls ++ "\x22") ++
      htmlOfAttrs attrs ++ ">" ++ htmlOfNodes cs ++ "</" ++ tag ++ ">"

/-- HTML serialization of an attribute list. -/
def htmlOfAttrs : List (String × String) → String
  | [] => ""
  | (k, v) :: rest => " " ++ k ++ "=\x22" ++ v ++ "\x22" ++ htmlOfAttrs rest

/-- HTML serialization of a node list, modelling the DOM `innerHTML` of
their parent. -/
def htmlOfNodes : List Node → String
  | [] => ""
  | n :: ns => htmlOfNode n ++ htmlOfNodes ns
end

/-- The Extracted Article: resolved title, the cleaned clone's children
(the DOM content of the region after boilerplate removal) and its
`innerHTML` serialization, which is the `content` the pipeline checks and
converts. -/
structure Article where
  title : String
  nodes : List Node
  content : String

/-- `extractContent` (index.js lines 136-178).  `cloneNode(true)` is a deep
copy, so on the value level the clone equals the selected region; boilerplate
removal is applied to the clone.  When neither a content region nor a body
exists, the source dereferences `null` (`contentElement.cloneNode`) and the
call fails: this is modelled by `none`. -/
def extractContent (d : Document) : Option Article :=
  match selectRegion d with
  | none => none
  | some region =>
    let contentClone := region   -- cloneNode(true): identical tree value
    let cleaned := removeBoilerplate contentClone
    some { title := resolveTitle d
           nodes := childrenOf cleaned
           content := htmlOfNodes (childrenOf cleaned) }

/-- Failure modes of the conversion pipeline visible in the model:
`nullRegion` is the `TypeError` thrown inside `extractContent` when neither
a content region nor a body exists; `noContent` is the
`"Failed to extract article content"` error thrown by
`convertHtmlToMarkdown` when the extracted `content` is empty. -/
inductive ConvErr where
  | nullRegion
  | noContent
deriving DecidableEq, Repr

/-! ## The Markdown Serializer

The Turndown service configured by `createTurndownService` (index.js lines
180-267).  The conversion engine itself is external library code; it is
modelled from the spec: each rule is a pure function from a node and its
already-converted inner content to a Markdown fragment, rules added later
take precedence, raw-text escaping is disabled (text nodes pass through
verbatim), and unhandled elements fall back to generic conversion (modelled
as ATX headings, blank-line-wrapped paragraphs, and otherwise the
concatenated inner content). -/

/-- Children sizes never exceed the node size (a termination measure used
by the serializer definitions below). -/
theorem sizeOfChildren (m : Node) : sizeOf (childrenOf m) ≤ sizeOf m := by
  cases m with
  | text s => simp [childrenOf]
  | elem t c a cs => simp [childrenOf]

mutual
/-- Every proper descendant of a node is strictly smaller. -/
theorem sizeOfDescMem (n : Node) : ∀ m ∈ desc n, sizeOf m < sizeOf n := by
  cases n with
  | text s => intro m hm; simp [desc] at hm
  | elem t c a cs =>
    intro m hm
    simp only [desc] at hm
    have := sizeOfDescListMem cs m hm
    simp
    omega

/-- Every node of `descList cs` is strictly smaller than `cs`. -/
theorem sizeOfDescListMem (cs : List Node) : ∀ m ∈ descList cs, sizeOf m < sizeOf cs := by
  cases cs with
  | nil => intro m hm; simp [descList] at hm
  | cons n ns =>
    intro m hm
    have hm' : m = n ∨ m ∈ desc n ∨ m ∈ descList ns := by
      simpa [descList, List.mem_cons, List.mem_append] using hm
    rcases hm' with h | h | h
    · subst h; simp; omega
    · have := sizeOfDescMem n m h
      simp
      omega
    · have := sizeOfDescListMem ns m h
      simp
      omega
end

/-- JavaScript `String.prototype.trim`. -/
def jsTrim (l : Str) : Str :=
  ((l.dropWhile jsWs).reverse.dropWhile jsWs).reverse

/-- `replace(/\n/g, repl)`: global replacement of the newline character. -/
def replNl (repl : Str) : Str → Str
  | [] => []
  | c :: rest => (if c = '\n' then repl else [c]) ++ replNl repl rest

/-- `replace(/\n/g, " ")`: newlines collapsed to spaces (table cells). -/
def nlToSpace (l : Str) : Str := l.map (fun c => if c = '\n' then ' ' else c)

/-- JavaScript `String.prototype.repeat`. -/
def strRepeat (s : Str) : Nat → Str
  | 0 => []
  | n + 1 => s ++ strRepeat s n

/-- Word characters of the regex class `\w`. -/
def isWordChar (c : Char) : Bool := c.isAlpha || c.isDigit || c = '_'

/-- The match of `/language-(\w+)/` on a class string: the first position
where `language-` is followed by at least one word character yields the
maximal word-character run; no such position yields the empty string. -/
def langScan : Str → Str
  | [] => []
  | c :: rest =>
    if strStarts "language-".data (c :: rest) ∧
        ((c :: rest).drop 9).takeWhile isWordChar ≠ [] then
      ((c :: rest).drop 9).takeWhile isWordChar
    else langScan rest

/-- Admonition type label (index.js lines 257-261): `warning` before `tip`
before `note`, tested by substring containment on `className`. -/
def admonitionLabel (cls : String) : Str :=
  if hasSubB "warning".data cls.data then "⚠️ WARNING".data
  else if hasSubB "tip".data cls.data then "💡 TIP".data
  else "ℹ️ NOTE".data

/-- The admonition filter (index.js lines 248-255): a `div` whose
`className` contains `warning`, `tip` or `note` as a substring. -/
def isAdmonition (tag : String) (cls : String) : Bool :=
  tag = "div" ∧ (hasSubB "warning".data cls.data ||
    hasSubB "tip".data cls.data || hasSubB "note".data cls.data)

/-- The admonition replacement (index.js line 262):
`\n> **TYPE**\n> ` + trimmed content with internal newlines replaced by
`\n> `, + `\n\n`. -/
def admonitionOut (cls : String) (content : Str) : Str :=
  "\n> **".data ++ admonitionLabel cls ++ "**\n> ".data ++
    replNl "\n> ".data (jsTrim content) ++ "\n\n".data

/-- The `td`/`th` cells of a row, `row.querySelectorAll("td, th")`. -/
def cellsOf (row : Node) : List Node :=
  (desc row).filter (fun m => tagOf m = "td" || tagOf m = "th")

/-- The image replacement (index.js lines 211-218): `![alt](src)` from the
attributes, absent attributes defaulting to the empty string. -/
def imgOut (n : Node) : Str :=
  "![".data ++ ((getAttr n "alt").getD "").data ++ "](".data ++
    ((getAttr n "src").getD "").data ++ ")".data

/-- Heading level for ATX headings of the generic conversion. -/
def hLevel (tag : String) : Option Nat :=
  if tag = "h1" then some 1 else if tag = "h2" then some 2
  else if tag = "h3" then some 3 else if tag = "h4" then some 4
  else if tag = "h5" then some 5 else if tag = "h6" then some 6
  else none

mutual
/-- The Markdown Serializer on one node.  `pre` records whether an ancestor
is a `pre` element (`node.closest("pre")`).  Rule dispatch follows Turndown
precedence: rules added later are checked first, so the order is
admonition, table, image, inline code, preformatted block, then the
generic conversion. -/
def serNode (pre : Bool) (n : Node) : Str :=
  match n with
  | .text s => s.data
  | .elem tag cls attrs cs =>
    if isAdmonition tag cls then
      admonitionOut cls (serList pre cs)
    else if tag = "table" then
      let rows := (descList cs).filter (fun m => tagOf m = "tr")
      let mdRows := rows.attach.map (fun r =>
        List.intercalate " | ".data
          ((cellsOf r.val).attach.map (fun cell =>
            let t := nlToSpace (serList false (childrenOf cell.val))
            if tagOf cell.val = "th" then "**".data ++ t ++ "**".data
            else t)))
      let withSep :=
        match mdRows, rows with
        | r0 :: restRows, row0 :: _ =>
          r0 :: (strRepeat "---|".data (cellsOf row0).length).dropLast ::
            restRows
        | _, _ => mdRows
      '\n' :: List.intercalate "\n".data withSep ++ "\n\n".data
    else if tag = "img" then
      imgOut (.elem tag cls attrs cs)
    else if tag = "code" then
      if pre then serList pre cs
      else tickChar :: (textContentList cs).data ++ [tickChar]
    else if tag = "pre" then
      let codeNode := (descList cs).find? (fun m => tagOf m = "code")
      let language :=
        match codeNode with
        | some cn => langScan (classOf cn).data
        | none => []
      '\n' :: "```".data ++ language ++ '\n' :: serList true cs ++
        "\n```\n".data
    else if tag = "p" then
      "\n\n".data ++ serList pre cs ++ "\n\n".data
    else
      match hLevel tag with
      | some k => "\n\n".data ++ List.replicate k '#' ++ ' ' :: serList pre cs ++ "\n\n".data
      | none => serList pre cs
termination_by sizeOf n
decreasing_by
  all_goals simp_wf
  all_goals try (first | (simp; omega) | simp)
  all_goals
    (have h1 : sizeOf (childrenOf cell.val) ≤ sizeOf cell.val := sizeOfChildren _
     have hc : cell.val ∈ (desc r.val).filter
         (fun m => tagOf m = "td" || tagOf m = "th") := cell.property
     have h2 : sizeOf cell.val < sizeOf r.val :=
       sizeOfDescMem r.val cell.val (List.mem_filter.mp hc).1
     have hr : r.val ∈ (descList cs).filter (fun m => tagOf m = "tr") :=
       r.property
     have h3 : sizeOf r.val < sizeOf cs :=
       sizeOfDescListMem cs r.val (List.mem_filter.mp hr).1
     simp
     omega)

/-- The Markdown Serializer on a node list (already-converted inner content
of a parent, concatenated). -/
def serList (pre : Bool) : List Node → Str
  | [] => []
  | n :: ns => serNode pre n ++ serList pre ns
termination_by ns => sizeOf ns
end

/-- The full Markdown conversion of the article content:
`turndownService.turndown(article.content)` on the extracted nodes. -/
def turndown (ns : List Node) : Str := serList false ns

/-- The pure tail of the Conversion Orchestrator `convertHtmlToMarkdown`
(index.js lines 74-89): extract, fail when no article content, serialize,
normalize, prepend the title header.  `turndown(article.content)` re-parses
the extracted `innerHTML` string; the round trip is modelled as the
identity on the extracted nodes. -/
def convertCore (d : Document) : Except ConvErr Str :=
  match extractContent d with
  | none => .error .nullRegion
  | some a =>
    if a.content = "" then .error .noContent
    else .ok ("# ".data ++ a.title.data ++ "\n\n".data ++
      cleanMarkdown (turndown a.nodes))


/-! ## Spec-side definitions and the claim theorems -/

/-- The Content Region Priority List in the spec's fixed order: specific
container class, `article` tag, `main` tag, `content` class. -/
def contentRegionPriorityList : List Sel :=
  [.cls "doc-content", .tag "article", .tag "main", .cls "content"]

/-- Modelled from the spec: "ordered sequence of selectors tried in turn to
find the main content container; first match wins; falls back to the whole
body". -/
def specContentRegion (d : Document) : Option Node :=
  match List.findSome? (docQS d) contentRegionPriorityList with
  | some e => some e
  | none => d.body

/-- The title resolution as amended: the meta title is used only when the
tag is present with nonempty content, the first `h1` only when its text is
nonempty, and `"Untitled"` otherwise. -/
def specTitle (d : Document) : String :=
  let h1Part : String :=
    match (docQS d (.tag "h1")).map textContent with
    | some t => if t = "" then "Untitled" else t
    | none => "Untitled"
  match (docQS d (.tagAttr "meta" "property" "og:title")).map
      (fun m => (getAttr m "content").getD "") with
  | some s => if s = "" then h1Part else s
  | none => h1Part

/-- A document whose `og:title` meta tag is present but carries an empty
`content` attribute, while an `h1` with text `X` exists. -/
def titleDoc : Document :=
  ⟨[.elem "meta" "" [("property", "og:title"), ("content", "")] []],
   some (.elem "body" "" [] [.elem "h1" "" [] [.text "X"]])⟩

/-- A document with a body and an empty `article` region: a content region
exists, yet the extracted content is empty. -/
def emptyArticleDoc : Document :=
  ⟨[], some (.elem "body" "" [] [.elem "article" "" [] []])⟩

/-- Splitting a string into its newline-separated lines. -/
def splitNl : Str → List Str
  | [] => [[]]
  | c :: rest =>
    if c = '\n' then [] :: splitNl rest
    else
      match splitNl rest with
      | l :: ls => (c :: l) :: ls
      | [] => [[c]]

/-! ## A mutable-heap DOM model for the cloning step (index.js lines
152-172)

The pure tree model above cannot express the frame property of
`cloneNode(true)` followed by in-place removals, so the relevant lines are
re-embedded over an explicit heap: nodes live in a store keyed by numeric
identities, `cloneNode` allocates fresh identities, and `el.remove()`
mutates a parent's child list in place.  A node with an empty tag models a
DOM text node. -/

/-- A heap-allocated DOM node: tag (empty for text nodes), raw `class`
attribute, other attributes, text payload, and the identities of its
children. -/
structure HNode where
  tag : String
  className : String
  attrs : List (String × String)
  text : String
  children : List Nat
deriving DecidableEq, Repr

/-- A node store: entries keyed by identity, and the next fresh
identity. -/
structure Heap where
  entries : List (Nat × HNode)
  next : Nat
deriving DecidableEq, Repr

/-- Node lookup by identity (first entry wins). -/
def lookupH (h : Heap) (i : Nat) : Option HNode :=
  (h.entries.find? (fun e => e.1 = i)).map (·.2)

/-- Allocation of a fresh node, returning the new heap and the fresh
identity. -/
def insertH (h : Heap) (n : HNode) : Heap × Nat :=
  ({ entries := (h.next, n) :: h.entries, next := h.next + 1 }, h.next)

/-- In-place update of the node at an identity. -/
def updateH (h : Heap) (i : Nat) (n : HNode) : Heap :=
  { entries := h.entries.map (fun e => if e.1 = i then (i, n) else e),
    next := h.next }

/-- The degenerate node used when a lookup fails or clone fuel runs out. -/
def emptyHNode : HNode := ⟨"", "", [], "", []⟩

mutual
/-- Deep clone, `contentArea.cloneNode(true)` (index.js line 152): the
subtree rooted at an identity is copied into fresh identities; the
original entries are only read, never written.  Fuel bounds the recursion
depth. -/
def cloneH : Nat → Heap → Nat → Heap × Nat
  | 0, h, _ => insertH h emptyHNode
  | fuel + 1, h, i =>
    match lookupH h i with
    | none => insertH h emptyHNode
    | some n =>
      let p := cloneKidsH fuel h n.children
      insertH p.1 { n with children := p.2 }
termination_by fuel _ _ => (fuel, 0)

/-- Clone of a child list, left to right, threading the heap. -/
def cloneKidsH : Nat → Heap → List Nat → Heap × List Nat
  | _, h, [] => (h, [])
  | fuel, h, i :: is =>
    let p := cloneH fuel h i
    let q := cloneKidsH fuel p.1 is
    (q.1, p.2 :: q.2)
termination_by fuel _ is => (fuel, is.length + 1)
end

/-- Selector matching on a heap node, mirroring `matchesSel` of the pure
model (a text node, with empty tag, matches no class selector). -/
def matchesSelH (s : Sel) (n : HNode) : Bool :=
  match s with
  | .cls name => n.tag ≠ "" ∧ name.data ∈ splitClasses n.className.data
  | .tag name => n.tag = name
  | .tagAttr t a v => n.tag = t ∧
      (n.attrs.find? (fun p => p.1 = a)).map (·.2) = some v

/-- Whether the node at an identity matches a selector (an absent node
matches nothing). -/
def matchesIdH (h : Heap) (s : Sel) (i : Nat) : Bool :=
  match lookupH h i with
  | none => false
  | some n => matchesSelH s n

/-- One selector round of the removal loop (index.js lines 169-172):
every matching descendant of the worklist's nodes is detached from its
parent's child list, by in-place update; the traversal continues into all
former children, matching or not, as `querySelectorAll` snapshots the
full subtree.  Fuel bounds the number of processed nodes. -/
def pruneH : Nat → Sel → Heap → List Nat → Heap
  | 0, _, h, _ => h
  | _ + 1, _, h, [] => h
  | fuel + 1, s, h, i :: is =>
    match lookupH h i with
    | none => pruneH fuel s h is
    | some n =>
      pruneH fuel s
        (updateH h i
          { n with children :=
              n.children.filter (fun c => ! matchesIdH h s c) })
        (n.children ++ is)

/-- The `elementsToRemove.forEach` loop over the Boilerplate Selector Set,
applied to the clone root. -/
def removeBoilerplateH (fuel : Nat) (h : Heap) (root : Nat) : Heap :=
  elementsToRemove.foldl (fun acc s => pruneH fuel s acc [root]) h

/-- The cloning and boilerplate-removal steps of `extractContent`
(index.js lines 152-172) over the heap model: deep-clone the selected
region, then run the removal loop on the clone; the result pairs the final
heap with the clone's root identity. -/
def extractCloneH (fuel : Nat) (h : Heap) (region : Nat) : Heap × Nat :=
  let p := cloneH fuel h region
  (removeBoilerplateH fuel p.1 p.2, p.2)

/-- Well-formedness: every allocated identity is below the fresh
counter. -/
def heapBounded (h : Heap) : Prop := ∀ e ∈ h.entries, e.1 < h.next

/-- Segment closure: every entry at an identity at or above `bound` has
all its children at or above `bound` (the clone lives in such a
segment). -/
def segClosed (h : Heap) (bound : Nat) : Prop :=
  ∀ e ∈ h.entries, bound ≤ e.1 → ∀ c ∈ (e.2).children, bound ≤ c


/-- C4: the Content Extractor tries the Content Region Priority List
selectors in fixed order (`.doc-content`, `article`, `main`, `.content`),
selects the first element found, and falls back to the document body when
none of the four selectors matches. -/
theorem c4_content_region_priority (d : Document) :
    selectRegion d = specContentRegion d := by
  unfold selectRegion specContentRegion contentRegionPriorityList
  cases h1 : docQS d (Sel.cls "doc-content") <;>
    cases h2 : docQS d (Sel.tag "article") <;>
      cases h3 : docQS d (Sel.tag "main") <;>
        cases h4 : docQS d (Sel.cls "content") <;>
          simp [List.findSome?, h1, h2, h3, h4]

/-- C7 (amended): the extracted title is the `og:title` meta content when
that tag is present with nonempty content, otherwise the first `h1` text
when nonempty, otherwise the literal `"Untitled"`. -/
theorem c7_title_resolution (d : Document) :
    resolveTitle d = specTitle d := by
  unfold resolveTitle specTitle jsOr
  cases hm : (docQS d (Sel.tagAttr "meta" "property" "og:title")) <;>
    cases hh : (docQS d (Sel.tag "h1")) <;>
      simp [hm, hh] <;> split <;> simp

/-- C7 counterexample: the claim says the meta title tag wins whenever it
is present, but with an empty `content` the source falls through to the
`h1` text: the meta tag of `titleDoc` is present with content `""`, yet the
resolved title is `"X"`. -/
theorem c7_counterexample :
    (docQS titleDoc (Sel.tagAttr "meta" "property" "og:title")).map
        (fun m => (getAttr m "content").getD "") = some "" ∧
    resolveTitle titleDoc = "X" ∧ ("X" : String) ≠ "" := by
  refine ⟨?_, ?_, by decide⟩
  · rfl
  · rfl

/-- C2 (amended): extraction reaches no region exactly when no priority
selector matches and no body exists, in which case the pipeline fails; and
when a region or body does exist, extraction returns an article but the
pipeline still fails (with the no-content error) exactly when the extracted
content is empty. -/
theorem c2_extraction_error (d : Document) :
    (selectRegion d = none ↔
      (∀ s ∈ contentRegionPriorityList, docQS d s = none) ∧ d.body = none) ∧
    (convertCore d = .error ConvErr.nullRegion ↔ selectRegion d = none) ∧
    (∀ a, extractContent d = some a →
      (a.content = "" → convertCore d = .error ConvErr.noContent) ∧
      (a.content ≠ "" → convertCore d = .ok ("# ".data ++ a.title.data ++
        "\n\n".data ++ cleanMarkdown (turndown a.nodes)))) := by
  refine ⟨?_, ?_, ?_⟩
  · unfold selectRegion contentRegionPriorityList
    cases h1 : docQS d (Sel.cls "doc-content") <;>
      cases h2 : docQS d (Sel.tag "article") <;>
        cases h3 : docQS d (Sel.tag "main") <;>
          cases h4 : docQS d (Sel.cls "content") <;>
            simp [h1, h2, h3, h4]
  · unfold convertCore extractContent
    cases hr : selectRegion d with
    | none => simp
    | some r => simp; split <;> simp
  · intro a hx
    unfold convertCore
    rw [hx]
    constructor
    · intro hc; simp [hc]
    · intro hc; simp [hc]

/-- The empty-article document extracts to an article with empty content. -/
theorem extractEmptyArticle :
    extractContent emptyArticleDoc = some ⟨"Untitled", [], ""⟩ := rfl

/-- C2 counterexample: the claim's converse direction fails.  In
`emptyArticleDoc` a content region (the `article` element) is found, yet
the conversion raises the no-content extraction error. -/
theorem c2_counterexample :
    (selectRegion emptyArticleDoc).isSome = true ∧
    convertCore emptyArticleDoc = .error ConvErr.noContent := by
  constructor
  · rfl
  · rfl

/-- C2 witness: the amended theorem applied at concrete documents: a
document with no region and no body fails with the null-region error, and
`emptyArticleDoc` fails with the no-content error. -/
theorem c2_extraction_error_witness :
    convertCore ⟨[], none⟩ = .error ConvErr.nullRegion ∧
    convertCore emptyArticleDoc = .error ConvErr.noContent := by
  constructor
  · exact (c2_extraction_error ⟨[], none⟩).2.1.mpr
      ((c2_extraction_error ⟨[], none⟩).1.mpr
        ⟨by intro s hs; fin_cases hs <;> rfl, rfl⟩)
  · exact ((c2_extraction_error emptyArticleDoc).2.2
      ⟨"Untitled", [], ""⟩ extractEmptyArticle).1 rfl

/-- C10: when extraction finds a region (or the body fallback) but the
content HTML left after boilerplate removal is the empty string, the
pipeline fails with the extraction error before serialization. -/
theorem c10_empty_content_fails (d : Document) (a : Article)
    (hx : extractContent d = some a) (hc : a.content = "") :
    convertCore d = .error ConvErr.noContent := by
  unfold convertCore
  rw [hx]
  simp [hc]

/-- C10 witness: the empty-article document is extracted to an article with
empty content, and conversion fails with the extraction error. -/
theorem c10_empty_content_fails_witness :
    convertCore emptyArticleDoc = .error ConvErr.noContent :=
  c10_empty_content_fails emptyArticleDoc ⟨"Untitled", [], ""⟩
    extractEmptyArticle rfl


/-! ### Substring and line-splitting lemmas -/

/-- `strStarts` succeeds exactly on prefixes. -/
theorem strStarts_iff (pat l : Str) : strStarts pat l = true ↔ ∃ b, l = pat ++ b := by
  unfold strStarts
  rw [beq_iff_eq]
  constructor
  · intro h
    refine ⟨l.drop pat.length, ?_⟩
    conv_lhs => rw [← List.take_append_drop pat.length l]
    rw [h]
  · rintro ⟨b, rfl⟩
    simp

/-- `hasSubB` decides substring containment. -/
theorem hasSubB_iff (pat : Str) : ∀ l : Str, hasSubB pat l = true ↔ hasSub pat l := by
  intro l
  induction l with
  | nil =>
    simp only [hasSubB, beq_iff_eq, hasSub]
    constructor
    · rintro rfl; exact ⟨[], [], rfl⟩
    · rintro ⟨a, b, h⟩
      have h' : (a ++ pat) ++ b = [] := h.symm
      obtain ⟨hap, hb⟩ := List.append_eq_nil.mp h'
      obtain ⟨ha, hp⟩ := List.append_eq_nil.mp hap
      exact hp
  | cons c rest ih =>
    simp only [hasSubB, Bool.or_eq_true, strStarts_iff, ih]
    constructor
    · rintro (⟨b, hb⟩ | ⟨a, b, hab⟩)
      · exact ⟨[], b, hb⟩
      · exact ⟨c :: a, b, by simp [hab]⟩
    · rintro ⟨a, b, hab⟩
      cases a with
      | nil => exact Or.inl ⟨b, by simpa using hab⟩
      | cons a0 a' =>
        right
        have h3 := hab
        simp only [List.cons_append] at h3
        injection h3 with hx hy
        exact ⟨a', b, hy⟩

/-- Substring containment extends to the right context. -/
theorem hasSub_append_left (pat a : Str) {l : Str} (h : hasSub pat l) :
    hasSub pat (a ++ l) := by
  obtain ⟨x, y, rfl⟩ := h
  exact ⟨a ++ x, y, by simp⟩

/-- Every token produced by the tokenizer is a substring of the scanned
text together with the pending accumulator. -/
theorem splitClassesAux_sub : ∀ (l cur t : Str),
    t ∈ splitClassesAux cur l → hasSub t (cur.reverse ++ l) := by
  intro l
  induction l with
  | nil =>
    intro cur t ht
    simp only [splitClassesAux] at ht
    split at ht
    · simp at ht
    · simp at ht
      exact ht ▸ ⟨[], [], by simp⟩
  | cons c rest ih =>
    intro cur t ht
    simp only [splitClassesAux] at ht
    by_cases hw : jsWs c = true
    · rw [if_pos hw] at ht
      by_cases hc : cur = []
      · rw [if_pos hc] at ht
        have := ih [] t ht
        simp at this
        exact hasSub_append_left _ _ (by
          obtain ⟨x, y, hxy⟩ := this
          exact ⟨c :: x, y, by simp [hxy]⟩)
      · rw [if_neg hc] at ht
        rcases List.mem_cons.mp ht with h | h
        · exact h ▸ ⟨[], c :: rest, by simp⟩
        · have := ih [] t h
          simp at this
          obtain ⟨x, y, hxy⟩ := this
          exact ⟨cur.reverse ++ c :: x, y, by simp [hxy]⟩
    · rw [if_neg hw] at ht
      have := ih (c :: cur) t ht
      simpa using this

/-- A token of the class list is a substring of the raw class attribute. -/
theorem classTokens_hasSub (cls : String) (t : Str)
    (h : t ∈ classTokens cls) : hasSub t cls.data := by
  have := splitClassesAux_sub cls.data [] t h
  simpa using this

/-- `splitNl` always yields at least one line. -/
theorem splitNl_ne_nil (l : Str) : splitNl l ≠ [] := by
  cases l with
  | nil => simp [splitNl]
  | cons c rest =>
    simp only [splitNl]
    split
    · simp
    · split <;> simp

/-- Replacing every newline by `sep` is exactly joining the lines with
`sep`: the admonition body is the trimmed content whose every line after
the first is prefixed by the replacement text. -/
theorem replNl_intercalate (sep : Str) : ∀ t : Str,
    replNl sep t = List.intercalate sep (splitNl t) := by
  intro t
  induction t with
  | nil => simp [replNl, splitNl, List.intercalate]
  | cons c rest ih =>
    by_cases hc : c = '\n'
    · subst hc
      simp only [replNl, if_pos rfl, splitNl, ih]
      obtain ⟨l0, ls, hl⟩ : ∃ l0 ls, splitNl rest = l0 :: ls := by
        cases h : splitNl rest with
        | nil => exact absurd h (splitNl_ne_nil rest)
        | cons a as => exact ⟨a, as, rfl⟩
      rw [hl]
      simp [List.intercalate, List.intersperse]
    · simp only [replNl, if_neg hc, splitNl, ih]
      obtain ⟨l0, ls, hl⟩ : ∃ l0 ls, splitNl rest = l0 :: ls := by
        cases h : splitNl rest with
        | nil => exact absurd h (splitNl_ne_nil rest)
        | cons a as => exact ⟨a, as, rfl⟩
      rw [hl]
      cases ls with
      | nil => simp [List.intercalate, List.intersperse]
      | cons l1 ls' => simp [List.intercalate, List.intersperse]

/-- An element for which the admonition filter fires is serialized by the
admonition replacement. -/
theorem serNode_admonition (pre : Bool) (cls : String)
    (attrs : List (String × String)) (cs : List Node)
    (h : isAdmonition "div" cls = true) :
    serNode pre (.elem "div" cls attrs cs) =
      admonitionOut cls (serList pre cs) := by
  rw [serNode]
  simp [h]

/-- C9: admonition detection is substring-based on the raw class attribute
string: whenever the `className` of a `div` contains `warning`, `tip` or
`note` as a substring (for example `footnote` or `tips-box`), the
admonition rule fires and formats the div as a callout. -/
theorem c9_substring_admonition :
    (∀ (pre : Bool) (cls : String) (attrs : List (String × String))
        (cs : List Node),
      (hasSub "warning".data cls.data ∨ hasSub "tip".data cls.data ∨
        hasSub "note".data cls.data) →
      serNode pre (.elem "div" cls attrs cs) =
        admonitionOut cls (serList pre cs)) ∧
    serNode false (.elem "div" "footnote" [] [.text "Hi"]) =
      "\n> **ℹ️ NOTE**\n> Hi\n\n".data ∧
    serNode false (.elem "div" "tips-box" [] [.text "Hi"]) =
      "\n> **💡 TIP**\n> Hi\n\n".data := by
  refine ⟨?_, ?_, ?_⟩
  · intro pre cls attrs cs h
    apply serNode_admonition
    unfold isAdmonition
    rcases h with h | h | h <;>
      simp [(hasSubB_iff _ _).mpr h]
  · rw [serNode_admonition false "footnote" [] [.text "Hi"] (by decide)]
    simp [serList, serNode]
    decide
  · rw [serNode_admonition false "tips-box" [] [.text "Hi"] (by decide)]
    simp [serList, serNode]
    decide

/-- C9 witness: a `div` with class `warning-box` (class list does not
contain `warning`) is still formatted as a callout. -/
theorem c9_substring_admonition_witness :
    serNode false (.elem "div" "warning-box" [] []) =
      admonitionOut "warning-box" (serList false []) :=
  c9_substring_admonition.1 false "warning-box" [] []
    (Or.inl ⟨[], "-box".data, by decide⟩)


/-- C6 counterexample: the claim keys the label to class-list membership
checked warning-tip-note, but the code keys it to substring containment of
the raw `className`.  The class list of `"warningx tip"` contains `tip` and
does not contain `warning`, so the claim promises the `💡 TIP` header, yet
the source emits `⚠️ WARNING`. -/
theorem c6_counterexample :
    "tip".data ∈ classTokens "warningx tip" ∧
    "warning".data ∉ classTokens "warningx tip" ∧
    serNode false (.elem "div" "warningx tip" [] [.text "Hello"]) =
      "\n> **⚠️ WARNING**\n> Hello\n\n".data ∧
    ("\n> **⚠️ WARNING**\n> Hello\n\n".data : Str) ≠
      "\n> **💡 TIP**\n> Hello\n\n".data := by
  refine ⟨by decide, by decide, ?_, by decide⟩
  rw [serNode_admonition false "warningx tip" [] [.text "Hello"] (by decide)]
  simp [serList, serNode]
  decide

/-- C6 (amended): a `div` whose class list contains `warning`, `tip` or
`note` is emitted as a blockquote callout: a `> **<ICON LABEL>**` header
followed by `> ` and the trimmed inner content with every newline replaced
by `\n> ` (so every internal line is prefixed by `> `, as the
line-joining identity states); the label is chosen by substring precedence
on the raw `className` (`warning`, then `tip`, then `note`), which agrees
with the class-list reading except when a longer class name embeds one of
the keywords; a `div` of class `tip` containing text `Hello` yields
`> **💡 TIP**` followed by `> Hello`. -/
theorem c6_admonition_format :
    (∀ (pre : Bool) (cls : String) (attrs : List (String × String))
        (cs : List Node),
      ("warning".data ∈ classTokens cls ∨ "tip".data ∈ classTokens cls ∨
        "note".data ∈ classTokens cls) →
      serNode pre (.elem "div" cls attrs cs) =
        "\n> **".data ++ admonitionLabel cls ++ "**\n> ".data ++
          replNl "\n> ".data (jsTrim (serList pre cs)) ++ "\n\n".data) ∧
    (∀ cls : String,
      (hasSub "warning".data cls.data →
        admonitionLabel cls = "⚠️ WARNING".data) ∧
      (¬ hasSub "warning".data cls.data → hasSub "tip".data cls.data →
        admonitionLabel cls = "💡 TIP".data) ∧
      (¬ hasSub "warning".data cls.data → ¬ hasSub "tip".data cls.data →
        admonitionLabel cls = "ℹ️ NOTE".data)) ∧
    (∀ t : Str, replNl "\n> ".data t =
      List.intercalate "\n> ".data (splitNl t)) ∧
    serNode false (.elem "div" "tip" [] [.text "Hello"]) =
      "\n> **💡 TIP**\n> Hello\n\n".data := by
  refine ⟨?_, ?_, replNl_intercalate _, ?_⟩
  · intro pre cls attrs cs h
    have hadm : isAdmonition "div" cls = true := by
      unfold isAdmonition
      rcases h with h | h | h <;>
        simp [(hasSubB_iff _ _).mpr (classTokens_hasSub cls _ h)]
    rw [serNode_admonition pre cls attrs cs hadm]
    rfl
  · intro cls
    refine ⟨?_, ?_, ?_⟩
    · intro h
      unfold admonitionLabel
      simp [(hasSubB_iff _ _).mpr h]
    · intro hw ht
      unfold admonitionLabel
      have hw' : hasSubB "warning".data cls.data = false := by
        rcases hb : hasSubB "warning".data cls.data with _ | _
        · rfl
        · exact absurd ((hasSubB_iff _ _).mp hb) hw
      simp [hw', (hasSubB_iff _ _).mpr ht]
    · intro hw ht
      unfold admonitionLabel
      have hw' : hasSubB "warning".data cls.data = false := by
        rcases hb : hasSubB "warning".data cls.data with _ | _
        · rfl
        · exact absurd ((hasSubB_iff _ _).mp hb) hw
      have ht' : hasSubB "tip".data cls.data = false := by
        rcases hb : hasSubB "tip".data cls.data with _ | _
        · rfl
        · exact absurd ((hasSubB_iff _ _).mp hb) ht
      simp [hw', ht']
  · rw [serNode_admonition false "tip" [] [.text "Hello"] (by decide)]
    simp [serList, serNode]
    decide

/-- C6 witness: the amended theorem applied to a `div` of class
`note extra`. -/
theorem c6_admonition_format_witness :
    serNode false (.elem "div" "note extra" [] []) =
      "\n> **".data ++ admonitionLabel "note extra" ++ "**\n> ".data ++
        replNl "\n> ".data (jsTrim (serList false [])) ++ "\n\n".data :=
  c6_admonition_format.1 false "note extra" [] []
    (Or.inr (Or.inr (by decide)))


/-- A `pre` element is serialized by the fenced-block rule, tagged with the
language match of the first nested `code` element's class (empty when there
is no such element). -/
theorem serNode_pre (pre : Bool) (cls : String)
    (attrs : List (String × String)) (cs : List Node) :
    serNode pre (.elem "pre" cls attrs cs) =
      '\n' :: "```".data ++
        (match (descList cs).find? (fun m => tagOf m = "code") with
          | some cn => langScan (classOf cn).data
          | none => []) ++
        '\n' :: serList true cs ++ "\n```\n".data := by
  rw [serNode]
  simp [isAdmonition]

/-- C5: a `pre` element with a nested `code` element whose class matches
`language-<word>` with word `X` is serialized as a fenced code block whose
opening fence is tagged with `X`; the opening fence, the recursively
converted inner content and the closing fence are each on their own line;
without such a class (or without a `code` element) the tag is empty. -/
theorem c5_pre_fenced :
    (∀ (pre : Bool) (cls : String) (attrs : List (String × String))
        (cs : List Node) (cn : Node),
      (descList cs).find? (fun m => tagOf m = "code") = some cn →
      serNode pre (.elem "pre" cls attrs cs) =
        '\n' :: "```".data ++ langScan (classOf cn).data ++
          '\n' :: serList true cs ++ "\n```\n".data) ∧
    (∀ (pre : Bool) (cls : String) (attrs : List (String × String))
        (cs : List Node),
      (descList cs).find? (fun m => tagOf m = "code") = none →
      serNode pre (.elem "pre" cls attrs cs) =
        '\n' :: "```".data ++ '\n' :: serList true cs ++ "\n```\n".data) ∧
    (∀ (w rest : Str), w ≠ [] → (∀ c ∈ w, isWordChar c = true) →
      (∀ c, rest.head? = some c → isWordChar c = false) →
      langScan ("language-".data ++ w ++ rest) = w) := by
  refine ⟨?_, ?_, ?_⟩
  · intro pre cls attrs cs cn hfind
    rw [serNode_pre]
    rw [hfind]
  · intro pre cls attrs cs hfind
    rw [serNode_pre]
    rw [hfind]
    simp
  · intro w rest hne hw hrest
    have htkw : ∀ w' : Str, (∀ c ∈ w', isWordChar c = true) →
        (w' ++ rest).takeWhile isWordChar = w' := by
      intro w' hw'
      induction w' with
      | nil =>
        cases rest with
        | nil => simp
        | cons r0 rs => simp [List.takeWhile_cons, hrest r0 rfl]
      | cons a as iha =>
        have ha := hw' a (by simp)
        simp [List.takeWhile_cons, ha,
          iha (fun c hc => hw' c (by simp [hc]))]
    have hexp : "language-".data ++ w ++ rest =
        'l' :: 'a' :: 'n' :: 'g' :: 'u' :: 'a' :: 'g' :: 'e' :: '-' :: (w ++ rest) := by
      simp
    rw [hexp, langScan]
    have hstart : strStarts "language-".data
        ('l' :: 'a' :: 'n' :: 'g' :: 'u' :: 'a' :: 'g' :: 'e' :: '-' :: (w ++ rest)) = true := by
      rw [strStarts_iff]
      exact ⟨w ++ rest, rfl⟩
    have hdrop : ('l' :: 'a' :: 'n' :: 'g' :: 'u' :: 'a' :: 'g' :: 'e' :: '-' ::
        (w ++ rest)).drop 9 = w ++ rest := rfl
    simp [hstart, hdrop, htkw w hw, hne]

/-- C5 witness: the fenced-block theorem applied to a concrete
`pre > code class="language-js"` element, and the language match applied to
the concrete class `language-js`. -/
theorem c5_pre_fenced_witness :
    serNode false (.elem "pre" "" []
        [.elem "code" "language-js" [] [.text "x"]]) =
      '\n' :: "```".data ++
        langScan (classOf (.elem "code" "language-js" [] [.text "x"])).data ++
        '\n' :: serList true [.elem "code" "language-js" [] [.text "x"]] ++
        "\n```\n".data ∧
    langScan ("language-".data ++ "js".data ++ ([] : Str)) = "js".data := by
  constructor
  · exact c5_pre_fenced.1 false "" [] _ _ rfl
  · exact c5_pre_fenced.2.2 "js".data [] (by decide) (by decide)
      (fun c h => by simp at h)


/-! ### Table serialization lemmas -/

/-- Unfolding equation for a two-or-more-element `intercalate`. -/
theorem intercalate_cons₂ (sep a b : Str) (bs : List Str) :
    List.intercalate sep (a :: b :: bs) =
      a ++ sep ++ List.intercalate sep (b :: bs) := by
  simp [List.intercalate, List.intersperse]

/-- The descendants of a node are the descendants of its child forest. -/
theorem descChildren (n : Node) : desc n = descList (childrenOf n) := by
  cases n <;> rfl

/-- When a forest consists of `tr` rows with no nested `tr` descendants,
the `tr` filter over all descendants returns exactly the rows. -/
theorem filterTr (rows : List Node)
    (h1 : ∀ r ∈ rows, tagOf r = "tr")
    (h2 : ∀ r ∈ rows, ∀ m ∈ desc r, tagOf m ≠ "tr") :
    (descList rows).filter (fun m => tagOf m = "tr") = rows := by
  induction rows with
  | nil => rfl
  | cons r rs ih =>
    simp only [descList]
    simp only [List.filter_cons, List.filter_append]
    have hr : (fun m => decide (tagOf m = "tr")) r = true := by
      simp [h1 r (by simp)]
    have hdesc : (desc r).filter (fun m => tagOf m = "tr") = [] :=
      List.filter_eq_nil_iff.mpr (fun m hm => by
        simp [h2 r (by simp) m hm])
    simp only [hr, if_true, hdesc, List.nil_append]
    rw [ih (fun x hx => h1 x (by simp [hx]))
      (fun x hx => h2 x (by simp [hx]))]
    simp

/-- When the children of a row are its cells and no cell nests further
cells, the `td, th` filter over the row's descendants returns exactly the
children. -/
theorem filterCells (cs : List Node)
    (h1 : ∀ c ∈ cs, tagOf c = "td" ∨ tagOf c = "th")
    (h2 : ∀ c ∈ cs, ∀ m ∈ desc c, tagOf m ≠ "td" ∧ tagOf m ≠ "th") :
    (descList cs).filter (fun m => tagOf m = "td" || tagOf m = "th") = cs := by
  induction cs with
  | nil => rfl
  | cons c cs' ih =>
    simp only [descList]
    simp only [List.filter_cons, List.filter_append]
    have hc : (fun m => (decide (tagOf m = "td") || decide (tagOf m = "th"))) c
        = true := by
      rcases h1 c (by simp) with h | h <;> simp [h]
    have hdesc : (desc c).filter
        (fun m => tagOf m = "td" || tagOf m = "th") = [] :=
      List.filter_eq_nil_iff.mpr (fun m hm => by
        have := h2 c (by simp) m hm
        simp [this.1, this.2])
    simp only [hc, if_true, hdesc, List.nil_append]
    rw [ih (fun x hx => h1 x (by simp [hx]))
      (fun x hx => h2 x (by simp [hx]))]
    simp

/-- `cellsOf` returns exactly the children for a well-shaped row. -/
theorem cellsOfEq (r : Node)
    (h1 : ∀ c ∈ childrenOf r, tagOf c = "td" ∨ tagOf c = "th")
    (h2 : ∀ c ∈ childrenOf r, ∀ m ∈ desc c,
      tagOf m ≠ "td" ∧ tagOf m ≠ "th") :
    cellsOf r = childrenOf r := by
  unfold cellsOf
  rw [descChildren]
  exact filterCells (childrenOf r) h1 h2

/-- The repeated separator pattern is never empty for positive counts. -/
theorem strRepeatNeNil (M : Nat) : strRepeat "---|".data (M + 1) ≠ [] := by
  rw [strRepeat]
  simp

/-- Dropping the final character of `"---|".repeat (M+1)` leaves `---`
groups joined by `M` pipes. -/
theorem strRepeatDropLast : ∀ M : Nat,
    (strRepeat "---|".data (M + 1)).dropLast =
      "---".data ++ strRepeat "|---".data M := by
  intro M
  induction M with
  | zero => rfl
  | succ k ih =>
    rw [strRepeat, List.dropLast_append_of_ne_nil _ (strRepeatNeNil k), ih]
    rw [show strRepeat "|---".data (k + 1) =
      "|---".data ++ strRepeat "|---".data k from rfl]
    simp

/-- Pipe count of the trailing repeated groups. -/
theorem countPipeAux : ∀ k : Nat,
    (strRepeat "|---".data k).count '|' = k := by
  intro k
  induction k with
  | zero => rfl
  | succ j ih =>
    rw [strRepeat, List.count_append, ih]
    have : List.count '|' "|---".data = 1 := by decide
    omega

/-- The separator row of a table with `M ≥ 1` columns contains exactly
`M - 1` pipes. -/
theorem countPipeSep (M : Nat) :
    ((strRepeat "---|".data (M + 1)).dropLast).count '|' = M := by
  rw [strRepeatDropLast, List.count_append, countPipeAux]
  have : List.count '|' "---".data = 0 := by decide
  omega

/-- The repeated separator pattern contains no newline. -/
theorem noNlRepeat : ∀ M : Nat, '\n' ∉ strRepeat "---|".data M := by
  intro M
  induction M with
  | zero => simp [strRepeat]
  | succ k ih =>
    rw [strRepeat]
    intro h
    rcases List.mem_append.mp h with h | h
    · exact absurd h (by decide)
    · exact ih h

/-- The separator row contains no newline. -/
theorem noNlSep (M : Nat) :
    '\n' ∉ (strRepeat "---|".data M).dropLast := fun h =>
  noNlRepeat M ((List.dropLast_sublist _).subset h)

/-- `nlToSpace` output never contains a newline. -/
theorem noNlNlToSpace (t : Str) : '\n' ∉ nlToSpace t := by
  intro h
  unfold nlToSpace at h
  obtain ⟨c, hc, he⟩ := List.mem_map.mp h
  by_cases hcn : c = '\n'
  · rw [if_pos hcn] at he
    exact absurd he (by decide)
  · rw [if_neg hcn] at he
    exact hcn he

/-- `intercalate` of newline-free pieces with a newline-free separator is
newline-free. -/
theorem noNlIntercalate (sep : Str) (hsep : '\n' ∉ sep) :
    ∀ ls : List Str, (∀ l ∈ ls, '\n' ∉ l) →
      '\n' ∉ List.intercalate sep ls := by
  intro ls
  induction ls with
  | nil => intro _; simp [List.intercalate]
  | cons a as ih =>
    intro hls
    cases as with
    | nil =>
      simpa [List.intercalate, List.intersperse] using hls a (by simp)
    | cons b bs =>
      rw [intercalate_cons₂]
      intro hmem
      rcases List.mem_append.mp hmem with h | h
      · rcases List.mem_append.mp h with h | h
        · exact hls a (by simp) h
        · exact hsep h
      · exact ih (fun l hl => hls l (by simp [hl])) h


/-- C3: a table with one header row of `M ≥ 1` `th` cells and `N` data
rows of `td` cells serializes to exactly `N + 1` pipe-joined data lines
plus one separator line inserted after the first row; rows have no leading
or trailing pipes (each is the plain ` | ` join of its cell texts), header
cells are wrapped in bold markers, no produced line contains a newline, and
the separator (the repeated `---|` pattern with its trailing separator
trimmed) contains exactly `M - 1` pipes. -/
theorem c3_table_serialization
    (cls : String) (attrs : List (String × String))
    (hdr : Node) (drows : List Node) (M : Nat)
    (htagH : tagOf hdr = "tr") (htagD : ∀ r ∈ drows, tagOf r = "tr")
    (hnoTr : ∀ r ∈ hdr :: drows, ∀ m ∈ desc r, tagOf m ≠ "tr")
    (hcellH : ∀ c ∈ childrenOf hdr, tagOf c = "th")
    (hcellD : ∀ r ∈ drows, ∀ c ∈ childrenOf r, tagOf c = "td")
    (hnoCell : ∀ r ∈ hdr :: drows, ∀ c ∈ childrenOf r, ∀ m ∈ desc c,
      tagOf m ≠ "td" ∧ tagOf m ≠ "th")
    (hMH : (childrenOf hdr).length = M)
    (hMD : ∀ r ∈ drows, (childrenOf r).length = M)
    (hM : 1 ≤ M) :
    ∃ L : List Str,
      serNode false (.elem "table" cls attrs (hdr :: drows)) =
        '\n' :: List.intercalate "\n".data L ++ "\n\n".data ∧
      L = List.intercalate " | ".data ((childrenOf hdr).map (fun c =>
            "**".data ++ nlToSpace (serList false (childrenOf c)) ++
              "**".data)) ::
          (strRepeat "---|".data M).dropLast ::
          drows.map (fun r => List.intercalate " | ".data
            ((childrenOf r).map (fun c =>
              nlToSpace (serList false (childrenOf c))))) ∧
      L.length = drows.length + 2 ∧
      (∀ l ∈ L, '\n' ∉ l) ∧
      ((strRepeat "---|".data M).dropLast).count '|' = M - 1 := by
  have hrows : (descList (hdr :: drows)).filter (fun m => tagOf m = "tr")
      = hdr :: drows :=
    filterTr _ (by
      intro r hr
      rcases List.mem_cons.mp hr with h | h
      · exact h ▸ htagH
      · exact htagD r h) hnoTr
  have hcellsHdr : cellsOf hdr = childrenOf hdr :=
    cellsOfEq hdr (fun c hc => Or.inr (hcellH c hc))
      (hnoCell hdr (by simp))
  have hcellsData : ∀ r ∈ drows, cellsOf r = childrenOf r := fun r hr =>
    cellsOfEq r (fun c hc => Or.inl (hcellD r hr c hc))
      (hnoCell r (by simp [hr]))
  refine ⟨_, ?_, rfl, ?_, ?_, ?_⟩
  · rw [serNode]
    rw [hrows]
    simp [isAdmonition, List.attach_map_val, hcellsHdr, hMH]
    refine congrArg _ (congrArg₂ _ ?_ (congrArg₂ _ rfl ?_))
    · refine congrArg _ ?_
      apply List.map_congr_left
      intro c hc
      simp [hcellH c hc]
    · apply List.map_congr_left
      intro r hr
      rw [hcellsData r hr]
      refine congrArg _ ?_
      apply List.map_congr_left
      intro c hc
      simp [hcellD r hr c hc]
  · simp
  · intro l hl
    rcases List.mem_cons.mp hl with h | h
    · subst h
      exact noNlIntercalate " | ".data (by decide) _ (by
        intro x hx
        obtain ⟨c, hc, rfl⟩ := List.mem_map.mp hx
        intro hn
        rcases List.mem_append.mp hn with hn | hn
        · rcases List.mem_append.mp hn with hn | hn
          · exact absurd hn (by decide)
          · exact noNlNlToSpace _ hn
        · exact absurd hn (by decide))
    rcases List.mem_cons.mp h with h | h
    · subst h
      exact noNlSep M
    · obtain ⟨r, hr, rfl⟩ := List.mem_map.mp h
      exact noNlIntercalate " | ".data (by decide) _ (by
        intro x hx
        obtain ⟨c, hc, rfl⟩ := List.mem_map.mp hx
        exact noNlNlToSpace _)
  · obtain ⟨M', rfl⟩ : ∃ M', M = M' + 1 := ⟨M - 1, by omega⟩
    rw [countPipeSep]
    omega


/-- C3 witness: the table theorem applied to a concrete table with one
header row of two `th` cells and one data row of two `td` cells. -/
theorem c3_table_serialization_witness :
    ∃ L : List Str,
      serNode false (.elem "table" "" []
        [.elem "tr" "" [] [.elem "th" "" [] [.text "A"],
          .elem "th" "" [] [.text "B"]],
         .elem "tr" "" [] [.elem "td" "" [] [.text "1"],
          .elem "td" "" [] [.text "2"]]]) =
        '\n' :: List.intercalate "\n".data L ++ "\n\n".data ∧
      L = List.intercalate " | ".data
            ((childrenOf (.elem "tr" "" [] [.elem "th" "" [] [.text "A"],
              .elem "th" "" [] [.text "B"]])).map (fun c =>
              "**".data ++ nlToSpace (serList false (childrenOf c)) ++
                "**".data)) ::
          (strRepeat "---|".data 2).dropLast ::
          [Node.elem "tr" "" [] [.elem "td" "" [] [.text "1"],
            .elem "td" "" [] [.text "2"]]].map (fun r =>
            List.intercalate " | ".data ((childrenOf r).map (fun c =>
              nlToSpace (serList false (childrenOf c))))) ∧
      L.length = [Node.elem "tr" "" [] [.elem "td" "" [] [.text "1"],
        .elem "td" "" [] [.text "2"]]].length + 2 ∧
      (∀ l ∈ L, '\n' ∉ l) ∧
      ((strRepeat "---|".data 2).dropLast).count '|' = 2 - 1 :=
  c3_table_serialization "" []
    (.elem "tr" "" [] [.elem "th" "" [] [.text "A"],
      .elem "th" "" [] [.text "B"]])
    [.elem "tr" "" [] [.elem "td" "" [] [.text "1"],
      .elem "td" "" [] [.text "2"]]] 2
    (by decide) (by decide) (by decide) (by decide) (by decide) (by decide)
    (by decide) (by decide) (by decide)


/-! ### Idempotence machinery for the Markdown Normalizer

The amended C1 claim is settled through a fixed-point analysis: the five
newline passes establish freedom from their own regex patterns, later
passes preserve the invariants established by earlier ones, and each pass
is the identity on a pattern-free string. -/

/-- A prefix occurrence is a substring occurrence. -/
theorem hasSubOfPref {pat l : Str} (h : ∃ b, l = pat ++ b) : hasSub pat l := by
  obtain ⟨b, rfl⟩ := h
  exact ⟨[], b, rfl⟩

/-- A substring of the tail is a substring. -/
theorem hasSubCons {pat l : Str} (c : Char) (h : hasSub pat l) :
    hasSub pat (c :: l) := hasSub_append_left pat [c] h

/-- Substring occurrences in a cons are prefix occurrences or occurrences
in the tail. -/
theorem hasSubConsElim {pat l : Str} {c : Char} (h : hasSub pat (c :: l)) :
    (∃ b, c :: l = pat ++ b) ∨ hasSub pat l := by
  obtain ⟨a, b, hab⟩ := h
  cases a with
  | nil => exact Or.inl ⟨b, by simpa using hab⟩
  | cons a0 a' =>
    right
    simp only [List.cons_append] at hab
    injection hab with _ h2
    exact ⟨a', b, h2⟩

/-- No nonempty pattern occurs in the empty string. -/
theorem hasSubNil {pat : Str} (h : hasSub pat []) : pat = [] := by
  obtain ⟨a, b, hab⟩ := h
  have h' : (a ++ pat) ++ b = [] := hab.symm
  obtain ⟨hap, _⟩ := List.append_eq_nil.mp h'
  exact (List.append_eq_nil.mp hap).2

/-- A pattern beginning with a newline cannot start inside a block of
non-newline characters: its occurrences in `a ++ x` lie in `x`. -/
theorem hasSubNlStartElim {pat x : Str} (hpat : pat.head? = some '\n') :
    ∀ a : Str, (∀ c ∈ a, c ≠ '\n') → hasSub pat (a ++ x) → hasSub pat x := by
  intro a
  induction a with
  | nil => intro _ h; simpa using h
  | cons c a' ih =>
    intro ha h
    rcases hasSubConsElim (by simpa using h) with ⟨b, hb⟩ | h'
    · cases pat with
      | nil => simp at hpat
      | cons p0 _ =>
        have : p0 = '\n' := by simpa using hpat
        subst this
        simp only [List.cons_append] at hb
        injection hb with h1 _
        exact absurd h1 (ha c (by simp))
    · exact ih (fun d hd => ha d (by simp [hd])) h'

/-- A pattern beginning with a newline whose occurrence lies in a newline
run followed by `u` (with the run maximal): either the pattern's two
leading newlines fit and the rest of the pattern starts `u`, or the
occurrence lies inside `u`. -/
theorem hasSubNlNlRepElim {w u : Str} {w0 : Char}
    (hw0 : w.head? = some w0) (hw0n : w0 ≠ '\n')
    (hu : u.head? ≠ some '\n') :
    ∀ k : Nat, hasSub ('\n' :: '\n' :: w) (List.replicate k '\n' ++ u) →
      (2 ≤ k ∧ ∃ b, u = w ++ b) ∨ hasSub ('\n' :: '\n' :: w) u := by
  intro k
  induction k with
  | zero => intro h; exact Or.inr (by simpa using h)
  | succ j ih =>
    intro h
    rw [List.replicate_succ, List.cons_append] at h
    rcases hasSubConsElim h with ⟨b, hb⟩ | h'
    · -- '\n' :: replicate j ++ u = '\n' :: '\n' :: w ++ b
      injection hb with _ h2
      -- replicate j ++ u = '\n' :: (w ++ b)
      cases j with
      | zero =>
        simp only [List.replicate, List.nil_append] at h2
        cases u with
        | nil => simp at h2
        | cons u0 u' =>
          injection h2 with h3 _
          exact absurd (by simp [h3]) hu
      | succ i =>
        rw [List.replicate_succ, List.cons_append] at h2
        injection h2 with _ h3
        -- replicate i ++ u = w ++ b
        left
        refine ⟨by omega, ?_⟩
        cases i with
        | zero => exact ⟨b, by simpa using h3⟩
        | succ i' =>
          -- w would start with a newline
          rw [List.replicate_succ, List.cons_append] at h3
          cases w with
          | nil => simp at hw0
          | cons x xs =>
            have hx : x = w0 := by simpa using hw0
            injection h3 with h4 _
            exact absurd (hx ▸ h4.symm) hw0n
    · rcases ih h' with ⟨hk, hb⟩ | h'' 
      · exact Or.inl ⟨by omega, hb⟩
      · exact Or.inr h''

/-- An occurrence of three newlines within a maximal newline run followed
by `u`: the run has length at least three or the occurrence lies in `u`. -/
theorem hasSubNl3RepElim {u : Str} (hu : u.head? ≠ some '\n') :
    ∀ k : Nat, hasSub "\n\n\n".data (List.replicate k '\n' ++ u) →
      3 ≤ k ∨ hasSub "\n\n\n".data u := by
  intro k
  induction k with
  | zero => intro h; exact Or.inr (by simpa using h)
  | succ j ih =>
    intro h
    rw [List.replicate_succ, List.cons_append] at h
    rcases hasSubConsElim h with ⟨b, hb⟩ | h'
    · injection hb with _ h2
      cases j with
      | zero =>
        simp only [List.replicate, List.nil_append] at h2
        cases u with
        | nil => simp at h2
        | cons u0 u' =>
          injection h2 with h3 _
          exact absurd (by simp [h3]) hu
      | succ i =>
        rw [List.replicate_succ, List.cons_append] at h2
        injection h2 with _ h3
        cases i with
        | zero =>
          simp only [List.replicate, List.nil_append] at h3
          cases u with
          | nil => simp at h3
          | cons u0 u' =>
            injection h3 with h4 _
            exact absurd (by simp [h4]) hu
        | succ i' => exact Or.inl (by omega)
    · rcases ih h' with hk | h''
      · exact Or.inl (by omega)
      · exact Or.inr h''

/-- A pattern beginning with a non-newline character cannot start inside a
newline run: its occurrences in `replicate k newline ++ u` lie in `u`. -/
theorem hasSubRepElim {pat u : Str} {p0 : Char}
    (hp : pat.head? = some p0) (hpn : p0 ≠ '\n') :
    ∀ k : Nat, hasSub pat (List.replicate k '\n' ++ u) → hasSub pat u := by
  intro k
  induction k with
  | zero => intro h; simpa using h
  | succ j ih =>
    intro h
    rw [List.replicate_succ, List.cons_append] at h
    rcases hasSubConsElim h with ⟨b, hb⟩ | h'
    · cases pat with
      | nil => simp at hp
      | cons q qs =>
        have : q = p0 := by simpa using hp
        simp only [List.cons_append] at hb
        injection hb with h1 _
        exact absurd (this ▸ h1.symm) hpn
    · exact ih h'

/-- Dropping leading newlines from a maximal run lands at `u`. -/
theorem dropWhileNlRep {u : Str} (hu : u.head? ≠ some '\n') :
    ∀ k : Nat, (List.replicate k '\n' ++ u).dropWhile (· = '\n') = u := by
  intro k
  induction k with
  | zero =>
    cases u with
    | nil => rfl
    | cons u0 u' =>
      simp only [List.replicate_zero, List.nil_append]
      rw [List.dropWhile_cons_of_neg]
      simp only [decide_eq_true_eq]
      intro hc
      exact hu (by simp [hc])
  | succ j ih =>
    rw [List.replicate_succ, List.cons_append, List.dropWhile_cons_of_pos (by simp)]
    exact ih

/-- Every string is empty, begins with a non-newline character, or begins
with a maximal nonempty newline run. -/
theorem strDecomp (l : Str) :
    l = [] ∨ (∃ c rest, l = c :: rest ∧ c ≠ '\n') ∨
    (∃ k u, l = List.replicate (k + 1) '\n' ++ u ∧ u.head? ≠ some '\n') := by
  cases l with
  | nil => exact Or.inl rfl
  | cons c rest =>
    by_cases hc : c = '\n'
    · right; right
      subst hc
      refine ⟨(rest.takeWhile (· = '\n')).length, rest.dropWhile (· = '\n'),
        ?_, ?_⟩
      · have ht : rest.takeWhile (· = '\n') =
            List.replicate (rest.takeWhile (· = '\n')).length '\n' := by
          rw [List.eq_replicate_length]
          intro b hb
          have := List.mem_takeWhile_imp hb
          simpa using this
        conv_lhs => rw [← List.takeWhile_append_dropWhile (· = '\n') rest]
        rw [List.replicate_succ, List.cons_append]
        congr 1
        exact congrArg (· ++ _) ht
      · have := List.head?_dropWhile_not (· = '\n') rest
        intro hcon
        rw [hcon] at this
        simp at this
    · exact Or.inr (Or.inl ⟨c, rest, rfl, hc⟩)


/-- Unfolding: pass 1 copies a non-newline head. -/
theorem pass1_cons_nonNl {c : Char} (hc : c ≠ '\n') (rest : Str) :
    pass1 (c :: rest) = c :: pass1 rest := by
  rw [pass1, dif_neg]
  intro h
  have h' := congrArg List.head? h
  simp at h'
  exact hc h'

/-- Pass 1 preserves the head character. -/
theorem pass1_head (l : Str) : (pass1 l).head? = l.head? := by
  cases l with
  | nil => simp [pass1]
  | cons c rest =>
    rw [pass1]
    split
    · rename_i h
      have h' := congrArg List.head? h
      simp at h'
      simp [h']
    · simp

/-- Pass 1 on a maximal newline run: the run is capped at two newlines and
the remainder is processed independently. -/
theorem pass1_run {u : Str} (hu : u.head? ≠ some '\n') :
    ∀ k, pass1 (List.replicate k '\n' ++ u) =
      List.replicate (min k 2) '\n' ++ pass1 u := by
  have case1 : pass1 ('\n' :: u) = '\n' :: pass1 u := by
    rw [pass1, dif_neg]
    intro h
    cases u with
    | nil => simp at h
    | cons u0 u' =>
      have h' := congrArg (fun x => x.tail.head?) h
      simp at h'
      exact hu (by simp [h'])
  have case2 : pass1 ('\n' :: '\n' :: u) = '\n' :: '\n' :: pass1 u := by
    rw [pass1, dif_neg]
    · rw [case1]
    · intro h
      cases u with
      | nil => simp at h
      | cons u0 u' =>
        have h' := congrArg (fun x => x.tail.tail.head?) h
        simp at h'
        exact hu (by simp [h'])
  intro k
  match k with
  | 0 => simp
  | 1 => simpa using case1
  | 2 => simpa using case2
  | (k + 3) =>
    have hexp : List.replicate (k + 3) '\n' ++ u =
        '\n' :: '\n' :: '\n' :: (List.replicate k '\n' ++ u) := by
      rw [List.replicate_succ, List.replicate_succ, List.replicate_succ]
      simp
    rw [hexp, pass1, dif_pos (by simp)]
    have hdrop : ('\n' :: '\n' :: '\n' :: (List.replicate k '\n' ++ u)).dropWhile
        (· = '\n') = u := by
      rw [show ('\n' :: '\n' :: '\n' :: (List.replicate k '\n' ++ u)) =
        List.replicate (k + 3) '\n' ++ u from hexp.symm]
      exact dropWhileNlRep hu (k + 3)
    rw [hdrop]
    simp [show min (k + 3) 2 = 2 by omega]

/-- Fixpoint: pass 1 is the identity on strings without three consecutive
newlines. -/
theorem pass1Fix : ∀ l : Str, ¬ hasSub ['\n', '\n', '\n'] l → pass1 l = l := by
  have aux : ∀ (n : Nat) (l : Str), l.length ≤ n →
      ¬ hasSub ['\n', '\n', '\n'] l → pass1 l = l := by
    intro n
    induction n with
    | zero =>
      intro l hl _
      have : l = [] := List.eq_nil_of_length_eq_zero (by omega)
      subst this
      simp [pass1]
    | succ n ih =>
      intro l hl hno
      rcases strDecomp l with rfl | ⟨c, rest, rfl, hc⟩ | ⟨k, u, rfl, hu⟩
      · simp [pass1]
      · rw [pass1_cons_nonNl hc]
        rw [ih rest (by simp at hl; omega) (fun h => hno (hasSubCons c h))]
      · rw [pass1_run hu]
        have hk2 : k + 1 ≤ 2 := by
          by_contra hgt
          apply hno
          refine ⟨[], List.replicate (k + 1 - 3) '\n' ++ u, ?_⟩
          have hsplit : List.replicate (k + 1) '\n' =
              ['\n', '\n', '\n'] ++ List.replicate (k + 1 - 3) '\n' := by
            rw [show (['\n', '\n', '\n'] : Str) = List.replicate 3 '\n' from rfl,
              ← List.replicate_add]
            congr 1
            omega
          rw [hsplit]
          simp
        rw [min_eq_left hk2]
        have hlu : u.length ≤ n := by
          rw [List.length_append, List.length_replicate] at hl
          omega
        rw [ih u hlu (fun h => hno (hasSub_append_left _ _ h))]
  exact fun l => aux l.length l le_rfl

/-- Establishment: the output of pass 1 has no three consecutive
newlines. -/
theorem pass1Est : ∀ l : Str, ¬ hasSub ['\n', '\n', '\n'] (pass1 l) := by
  have aux : ∀ (n : Nat) (l : Str), l.length ≤ n →
      ¬ hasSub ['\n', '\n', '\n'] (pass1 l) := by
    intro n
    induction n with
    | zero =>
      intro l hl
      have : l = [] := List.eq_nil_of_length_eq_zero (by omega)
      subst this
      intro h
      simp [pass1] at h
      exact absurd (hasSubNil h) (by simp)
    | succ n ih =>
      intro l hl
      rcases strDecomp l with rfl | ⟨c, rest, rfl, hc⟩ | ⟨k, u, rfl, hu⟩
      · intro h
        simp [pass1] at h
        exact absurd (hasSubNil h) (by simp)
      · rw [pass1_cons_nonNl hc]
        intro h
        rcases hasSubConsElim h with ⟨b, hb⟩ | h'
        · injection hb with h1 _
          exact hc h1
        · exact ih rest (by simp at hl; omega) h'
      · rw [pass1_run hu]
        intro h
        have hu' : (pass1 u).head? ≠ some '\n' := by
          rw [pass1_head]
          exact hu
        rcases hasSubNl3RepElim hu' (min (k + 1) 2) h with hk | h'
        · omega
        · exact ih u (by
            rw [List.length_append, List.length_replicate] at hl
            omega) h'
  exact fun l => aux l.length l le_rfl


/-- A pattern beginning with `p0` cannot start inside a block that avoids
`p0`: its occurrences in `a ++ x` lie in `x`. -/
theorem hasSubStartElim {pat x : Str} {p0 : Char} (hp : pat.head? = some p0) :
    ∀ a : Str, (∀ c ∈ a, c ≠ p0) → hasSub pat (a ++ x) → hasSub pat x := by
  intro a
  induction a with
  | nil => intro _ h; simpa using h
  | cons c a' ih =>
    intro ha h
    rcases hasSubConsElim (by simpa using h) with ⟨b, hb⟩ | h'
    · cases pat with
      | nil => simp at hp
      | cons q qs =>
        have : q = p0 := by simpa using hp
        simp only [List.cons_append] at hb
        injection hb with h1 _
        exact absurd (this ▸ h1) (ha c (by simp))
    · exact ih (fun d hd => ha d (by simp [hd])) h'

/-- Unfolding: pass 2 copies a non-newline head. -/
theorem pass2_cons_nonNl {c : Char} (hc : c ≠ '\n') (rest : Str) :
    pass2 (c :: rest) = c :: pass2 rest := by
  rw [pass2, dif_neg]
  rintro ⟨h1, _⟩
  have h' := congrArg List.head? h1
  simp at h'
  exact hc h'

/-- Pass 2 preserves the head character. -/
theorem pass2_head (l : Str) : (pass2 l).head? = l.head? := by
  cases l with
  | nil => simp [pass2]
  | cons c rest =>
    rw [pass2]
    split
    · rename_i h
      have h' := congrArg List.head? h.1
      simp at h'
      simp [h']
    · simp

/-- Pass 2 on a maximal newline run of length at least two followed by a
fence: the run collapses to one newline. -/
theorem pass2_run_hit {u : Str} (hu : u.head? ≠ some '\n')
    (ht : u.take 3 = "```".data) :
    ∀ k, pass2 (List.replicate (k + 2) '\n' ++ u) =
      '\n' :: "```".data ++ pass2 (u.drop 3) := by
  intro k
  have hexp : List.replicate (k + 2) '\n' ++ u =
      '\n' :: '\n' :: (List.replicate k '\n' ++ u) := by
    rw [show k + 2 = 2 + k by omega, List.replicate_add]
    simp
  have hdw : ('\n' :: '\n' :: (List.replicate k '\n' ++ u)).dropWhile
      (· = '\n') = u := by
    rw [← hexp]
    exact dropWhileNlRep hu (k + 2)
  rw [hexp, pass2, dif_pos ⟨by simp, by rw [hdw]; exact ht⟩, hdw]

/-- Pass 2 on a newline run that the fence rule does not fire on: the run
is copied unchanged. -/
theorem pass2_run_miss {u : Str} (hu : u.head? ≠ some '\n') :
    ∀ k, ¬ (2 ≤ k ∧ u.take 3 = "```".data) →
      pass2 (List.replicate k '\n' ++ u) =
        List.replicate k '\n' ++ pass2 u := by
  intro k
  induction k with
  | zero => intro _; simp
  | succ j ih =>
    intro hm
    have hexp : List.replicate (j + 1) '\n' ++ u =
        '\n' :: (List.replicate j '\n' ++ u) := by
      rw [List.replicate_succ]
      simp
    rw [hexp, pass2, dif_neg]
    · rw [ih (fun hcon => hm ⟨by omega, hcon.2⟩), List.replicate_succ]
      simp
    · rintro ⟨h1, h2⟩
      rw [show ('\n' :: (List.replicate j '\n' ++ u)) =
        List.replicate (j + 1) '\n' ++ u from hexp.symm] at h2
      rw [dropWhileNlRep hu (j + 1)] at h2
      cases j with
      | zero =>
        have h' := congrArg (fun x => x.tail.head?) h1
        simp at h'
        cases u with
        | nil => simp at h'
        | cons u0 u' =>
          simp at h'
          exact hu (by simp [h'])
      | succ i => exact hm ⟨by omega, h2⟩

/-- Prefix reflection: a transformation that preserves heads and copies
the characters of `t` reflects the prefix `t` from output to input. -/
theorem prefReflGen (P : Str → Str)
    (hhead : ∀ m, (P m).head? = m.head?) :
    ∀ t : Str, (∀ c ∈ t, ∀ rest, P (c :: rest) = c :: P rest) →
      ∀ m b, P m = t ++ b → ∃ b', m = t ++ b' := by
  intro t
  induction t with
  | nil => intro _ m b _; exact ⟨m, rfl⟩
  | cons c t' iht =>
    intro hcons m b hp
    have hh : m.head? = some c := by
      rw [← hhead m, hp]
      simp
    obtain ⟨m₂, rfl⟩ : ∃ m₂, m = c :: m₂ := by
      cases m with
      | nil => simp at hh
      | cons x xs =>
        simp at hh
        exact ⟨xs, by rw [hh]⟩
    rw [hcons c (by simp) m₂] at hp
    injection hp with _ hp₂
    obtain ⟨b', rfl⟩ := iht (fun d hd rest => hcons d (by simp [hd]) rest)
      m₂ b hp₂
    exact ⟨b', rfl⟩

/-- Pass 2 copies the characters of a fence prefix. -/
theorem pass2TickCons : ∀ c ∈ ("```".data : Str), ∀ rest,
    pass2 (c :: rest) = c :: pass2 rest := by
  intro c hc rest
  refine pass2_cons_nonNl ?_ rest
  intro he
  subst he
  exact absurd hc (by decide)

/-- Fixpoint: pass 2 is the identity on strings without a double newline
followed by a fence. -/
theorem pass2Fix : ∀ l : Str,
    ¬ hasSub ('\n' :: '\n' :: "```".data) l → pass2 l = l := by
  have aux : ∀ (n : Nat) (l : Str), l.length ≤ n →
      ¬ hasSub ('\n' :: '\n' :: "```".data) l → pass2 l = l := by
    intro n
    induction n with
    | zero =>
      intro l hl _
      have : l = [] := List.eq_nil_of_length_eq_zero (by omega)
      subst this
      simp [pass2]
    | succ n ih =>
      intro l hl hno
      rcases strDecomp l with rfl | ⟨c, rest, rfl, hc⟩ | ⟨k, u, rfl, hu⟩
      · simp [pass2]
      · rw [pass2_cons_nonNl hc]
        rw [ih rest (by simp at hl; omega) (fun h => hno (hasSubCons c h))]
      · by_cases hhit : 2 ≤ k + 1 ∧ u.take 3 = "```".data
        · exfalso
          apply hno
          obtain ⟨hk2, ht⟩ := hhit
          refine ⟨List.replicate (k - 1) '\n', u.drop 3, ?_⟩
          have hsplit : List.replicate (k + 1) '\n' =
              List.replicate (k - 1) '\n' ++ ['\n', '\n'] := by
            rw [show (['\n', '\n'] : Str) = List.replicate 2 '\n' from rfl,
              ← List.replicate_add]
            congr 1
            omega
          have husplit : u = "```".data ++ u.drop 3 := by
            conv_lhs => rw [← List.take_append_drop 3 u]
            rw [ht]
          rw [hsplit, husplit]
          simp
        · rw [pass2_run_miss hu (k + 1) hhit]
          have hlu : u.length ≤ n := by
            rw [List.length_append, List.length_replicate] at hl
            omega
          rw [ih u hlu (fun h => hno (hasSub_append_left _ _ h))]
  exact fun l => aux l.length l le_rfl

/-- Establishment: the output of pass 2 has no double newline followed by
a fence. -/
theorem pass2Est : ∀ l : Str,
    ¬ hasSub ('\n' :: '\n' :: "```".data) (pass2 l) := by
  have aux : ∀ (n : Nat) (l : Str), l.length ≤ n →
      ¬ hasSub ('\n' :: '\n' :: "```".data) (pass2 l) := by
    intro n
    induction n with
    | zero =>
      intro l hl
      have : l = [] := List.eq_nil_of_length_eq_zero (by omega)
      subst this
      intro h
      simp [pass2] at h
      exact absurd (hasSubNil h) (by simp)
    | succ n ih =>
      intro l hl
      rcases strDecomp l with rfl | ⟨c, rest, rfl, hc⟩ | ⟨k, u, rfl, hu⟩
      · intro h
        simp [pass2] at h
        exact absurd (hasSubNil h) (by simp)
      · rw [pass2_cons_nonNl hc]
        intro h
        rcases hasSubConsElim h with ⟨b, hb⟩ | h'
        · injection hb with h1 _
          exact hc h1
        · exact ih rest (by simp at hl; omega) h'
      · by_cases hhit : 2 ≤ k + 1 ∧ u.take 3 = "```".data
        · obtain ⟨hk2, ht⟩ := hhit
          rw [show k + 1 = (k - 1) + 2 by omega,
            pass2_run_hit hu ht (k - 1)]
          intro h
          rcases hasSubConsElim h with ⟨b, hb⟩ | h'
          · injection hb with _ h2
            have h3 := congrArg List.head? h2
            simp at h3
          · have h'' := hasSubStartElim (show ('\n' :: '\n' :: "```".data : Str).head? = some '\n' from rfl) "```".data (by decide) h'
            exact ih (u.drop 3) (by
              rw [List.length_append, List.length_replicate] at hl
              have := List.length_drop 3 u
              omega) h''
        · rw [pass2_run_miss hu (k + 1) hhit]
          intro h
          have hu' : (pass2 u).head? ≠ some '\n' := by
            rw [pass2_head]
            exact hu
          rcases hasSubNlNlRepElim (w := "```".data) rfl (by decide) hu'
              (k + 1) h with ⟨hk, b, hb⟩ | h'
          · obtain ⟨b', rfl⟩ := prefReflGen pass2 pass2_head "```".data
              pass2TickCons u b hb
            exact hhit ⟨hk, by simp [List.take]⟩
          · exact ih u (by
              rw [List.length_append, List.length_replicate] at hl
              omega) h'
  exact fun l => aux l.length l le_rfl


/-- Substring occurrences survive dropping a prefix by `drop`. -/
theorem hasSubDrop {pat l : Str} {n : Nat} (h : hasSub pat (l.drop n)) :
    hasSub pat l := by
  obtain ⟨a, b, hab⟩ := h
  refine ⟨l.take n ++ a, b, ?_⟩
  conv_lhs => rw [← List.take_append_drop n l]
  rw [hab]
  simp

/-- Substring occurrences survive dropping a prefix by `dropWhile`. -/
theorem hasSubDropWhile {pat l : Str} {p : Char → Bool}
    (h : hasSub pat (l.dropWhile p)) : hasSub pat l := by
  obtain ⟨a, b, hab⟩ := h
  refine ⟨l.takeWhile p ++ a, b, ?_⟩
  conv_lhs => rw [← List.takeWhile_append_dropWhile p l]
  rw [hab]
  simp

/-- A pattern of newline-free characters followed by two newlines is never
a prefix of a newline-free block followed by a single newline and a
non-newline continuation. -/
theorem nlNlPatPrefElim {x : Str} (hx : x.head? ≠ some '\n') :
    ∀ (w y : Str), (∀ c ∈ w, c ≠ '\n') → (∀ c ∈ y, c ≠ '\n') →
      ∀ b, y ++ '\n' :: x ≠ w ++ '\n' :: '\n' :: b := by
  intro w
  induction w with
  | nil =>
    intro y _ hy b h
    cases y with
    | nil =>
      simp only [List.nil_append] at h
      injection h with _ h2
      exact hx (by simp [h2])
    | cons a y' =>
      simp only [List.cons_append, List.nil_append] at h
      injection h with h1 _
      exact hy a (by simp) h1
  | cons d w' ihw =>
    intro y hw hy b h
    cases y with
    | nil =>
      simp only [List.nil_append, List.cons_append] at h
      injection h with h1 _
      exact hw d (by simp) h1.symm
    | cons a y' =>
      simp only [List.cons_append] at h
      injection h with _ h2
      exact ihw y' (fun c hc => hw c (by simp [hc]))
        (fun c hc => hy c (by simp [hc])) b h2

/-- Span elimination for patterns of the shape `w ++ "\n\n"` with `w`
newline-free: occurrences in `y ++ "\n" ++ x` with `y` newline-free and `x`
not starting with a newline lie entirely in `x`. -/
theorem hasSubNlNlPatElim {w x : Str} (hw : ∀ c ∈ w, c ≠ '\n')
    (hx : x.head? ≠ some '\n') :
    ∀ y : Str, (∀ c ∈ y, c ≠ '\n') →
      hasSub (w ++ '\n' :: '\n' :: []) (y ++ '\n' :: x) →
      hasSub (w ++ '\n' :: '\n' :: []) x := by
  intro y
  induction y with
  | nil =>
    intro _ h
    rcases hasSubConsElim (by simpa using h) with ⟨b, hb⟩ | h'
    · exfalso
      have hb' : ([] : Str) ++ '\n' :: x = w ++ '\n' :: '\n' :: b := by
        simpa using hb
      exact nlNlPatPrefElim hx w [] hw (by simp) b hb'
    · exact h'
  | cons a y' ih =>
    intro hy h
    rcases hasSubConsElim (by simpa using h) with ⟨b, hb⟩ | h'
    · exfalso
      have hb' : (a :: y') ++ '\n' :: x = w ++ '\n' :: '\n' :: b := by
        simpa using hb
      exact nlNlPatPrefElim hx w (a :: y') hw hy b hb'
    · exact ih (fun c hc => hy c (by simp [hc])) h'


/-- Unfolding: pass 3 copies a head that is not a backtick. -/
theorem pass3_cons_ne {c : Char} (hc : c ≠ tickChar) (rest : Str) :
    pass3 (c :: rest) = c :: pass3 rest := by
  rw [pass3, if_neg]
  intro h
  have h' := congrArg List.head? h
  simp at h'
  apply hc
  rw [h']
  decide

/-- Pass 3 copies a newline head. -/
theorem pass3NlCons (m : Str) : pass3 ('\n' :: m) = '\n' :: pass3 m :=
  pass3_cons_ne (by decide) m

/-- Pass 3 preserves the head character. -/
theorem pass3_head (l : Str) : (pass3 l).head? = l.head? := by
  cases l with
  | nil => simp [pass3]
  | cons c rest =>
    rw [pass3]
    split
    · rename_i h
      have h' := congrArg List.head? h
      simp at h'
      simp [h']
    · simp

/-- Pass 3 copies a leading newline run unchanged. -/
theorem pass3_run (u : Str) :
    ∀ k, pass3 (List.replicate k '\n' ++ u) =
      List.replicate k '\n' ++ pass3 u := by
  intro k
  induction k with
  | zero => simp
  | succ j ih =>
    rw [List.replicate_succ]
    simp only [List.cons_append]
    rw [pass3NlCons, ih]

/-- Reflection of a single leading backtick through pass 3. -/
theorem pass3Ticks1 {m b : Str} (h : pass3 m = tickChar :: b) :
    ∃ b', m = tickChar :: b' := by
  have hh : m.head? = some tickChar := by rw [← pass3_head, h]; rfl
  cases m with
  | nil => simp at hh
  | cons x xs =>
    simp at hh
    exact ⟨xs, by rw [hh]⟩

/-- Reflection of the four-character pattern backtick, backtick, newline,
newline through pass 3 (the tail situation after peeling one backtick of a
closed-fence occurrence). -/
theorem pass3PatRefl : ∀ m b : Str,
    pass3 m = tickChar :: tickChar :: '\n' :: '\n' :: b →
    ∃ b', m = tickChar :: tickChar :: '\n' :: '\n' :: b' := by
  intro m b h
  obtain ⟨m₂, rfl⟩ := pass3Ticks1 (b := tickChar :: '\n' :: '\n' :: b) h
  by_cases hcond : (tickChar :: m₂).take 5 = "```\n\n".data
  · rw [pass3, if_pos hcond] at h
    have h' := congrArg (fun l : Str => (l.drop 2).head?) h
    simp at h'
  · rw [pass3, if_neg hcond] at h
    injection h with _ h₂
    obtain ⟨m₃, rfl⟩ := pass3Ticks1 (b := '\n' :: '\n' :: b) h₂
    by_cases hcond₂ : (tickChar :: m₃).take 5 = "```\n\n".data
    · rw [pass3, if_pos hcond₂] at h₂
      have h' := congrArg (fun l : Str => (l.drop 1).head?) h₂
      simp at h'
    · rw [pass3, if_neg hcond₂] at h₂
      injection h₂ with _ h₃
      obtain ⟨b', rfl⟩ := prefReflGen pass3 pass3_head ['\n', '\n']
        (by
          intro c hc rest
          have hcn : c = '\n' := by simpa using hc
          rw [hcn, pass3NlCons]) m₃ b (by simpa using h₃)
      exact ⟨b', rfl⟩

/-- Fixpoint: pass 3 is the identity on strings without a fence followed
by a double newline. -/
theorem pass3Fix : ∀ l : Str,
    ¬ hasSub ("```".data ++ '\n' :: '\n' :: []) l → pass3 l = l := by
  intro l
  induction l with
  | nil => intro _; simp [pass3]
  | cons c rest ih =>
    intro hno
    by_cases hcond : (c :: rest).take 5 = "```\n\n".data
    · exfalso
      apply hno
      refine hasSubOfPref ⟨(c :: rest).drop 5, ?_⟩
      conv_lhs => rw [← List.take_append_drop 5 (c :: rest)]
      rw [hcond]
      rfl
    · rw [pass3, if_neg hcond, ih (fun h => hno (hasSubCons c h))]

/-- Establishment: the output of pass 3 has no fence followed by a double
newline. -/
theorem pass3Est : ∀ l : Str,
    ¬ hasSub ("```".data ++ '\n' :: '\n' :: []) (pass3 l) := by
  have aux : ∀ (n : Nat) (l : Str), l.length ≤ n →
      ¬ hasSub ("```".data ++ '\n' :: '\n' :: []) (pass3 l) := by
    intro n
    induction n with
    | zero =>
      intro l hl
      have : l = [] := List.eq_nil_of_length_eq_zero (by omega)
      subst this
      intro h
      simp [pass3] at h
      exact absurd (hasSubNil h) (by simp)
    | succ n ih =>
      intro l hl
      cases l with
      | nil =>
        intro h
        simp [pass3] at h
        exact absurd (hasSubNil h) (by simp)
      | cons c rest =>
        by_cases hcond : (c :: rest).take 5 = "```\n\n".data
        · rw [pass3, if_pos hcond]
          intro h
          have hxhead : (pass3 ((rest.drop 2).dropWhile (· = '\n'))).head? ≠
              some '\n' := by
            rw [pass3_head]
            have := List.head?_dropWhile_not (· = '\n') (rest.drop 2)
            intro hcon
            rw [hcon] at this
            simp at this
          have h' : hasSub ("```".data ++ '\n' :: '\n' :: [])
              ("```".data ++ '\n' :: pass3 ((rest.drop 2).dropWhile (· = '\n'))) := by
            simpa using h
          have h'' := hasSubNlNlPatElim (w := "```".data) (by decide) hxhead
            "```".data (by decide) h'
          exact ih ((rest.drop 2).dropWhile (· = '\n')) (by
            have h1 := dropWhileLen (fun x => decide (x = '\n')) (rest.drop 2)
            have h2 := List.length_drop 2 rest
            simp at hl
            omega) h''
        · rw [pass3, if_neg hcond]
          intro h
          rcases hasSubConsElim h with ⟨b, hb⟩ | h'
          · -- the pattern would be reflected into the input, firing the rule
            have hb' : c :: pass3 rest =
                tickChar :: tickChar :: tickChar :: '\n' :: '\n' :: b := by
              simpa using hb
            injection hb' with hb1 hb2
            apply hcond
            obtain ⟨b', rfl⟩ := pass3PatRefl rest b hb2
            rw [hb1]
            simp [List.take]
            decide
          · exact ih rest (by simp at hl; omega) h'
  exact fun l => aux l.length l le_rfl

/-- Unfolding: pass 4 copies a non-newline head. -/
theorem pass4_cons_nonNl {c : Char} (hc : c ≠ '\n') (rest : Str) :
    pass4 (c :: rest) = c :: pass4 rest := by
  rw [pass4, dif_neg]
  rintro ⟨h1, _⟩
  have h' := congrArg List.head? h1
  simp at h'
  exact hc h'

/-- Pass 4 preserves the head character. -/
theorem pass4_head (l : Str) : (pass4 l).head? = l.head? := by
  cases l with
  | nil => simp [pass4]
  | cons c rest =>
    rw [pass4]
    split
    · rename_i h
      have h' := congrArg List.head? h.1
      simp at h'
      simp [h']
    · simp

/-- Pass 4 on a maximal newline run of length at least two followed by a
list marker: the run collapses to one newline. -/
theorem pass4_run_hit {u : Str} (hu : u.head? ≠ some '\n')
    (ht : u.take 2 = "- ".data ∨ u.take 2 = "* ".data) :
    ∀ k, pass4 (List.replicate (k + 2) '\n' ++ u) =
      '\n' :: u.take 2 ++ pass4 (u.drop 2) := by
  intro k
  have hexp : List.replicate (k + 2) '\n' ++ u =
      '\n' :: '\n' :: (List.replicate k '\n' ++ u) := by
    rw [show k + 2 = 2 + k by omega, List.replicate_add]
    simp
  have hdw : ('\n' :: '\n' :: (List.replicate k '\n' ++ u)).dropWhile
      (· = '\n') = u := by
    rw [← hexp]
    exact dropWhileNlRep hu (k + 2)
  rw [hexp, pass4, dif_pos ⟨by simp, by rw [hdw]; exact ht⟩, hdw]

/-- Pass 4 on a newline run that the list rule does not fire on: the run
is copied unchanged. -/
theorem pass4_run_miss {u : Str} (hu : u.head? ≠ some '\n') :
    ∀ k, ¬ (2 ≤ k ∧ (u.take 2 = "- ".data ∨ u.take 2 = "* ".data)) →
      pass4 (List.replicate k '\n' ++ u) =
        List.replicate k '\n' ++ pass4 u := by
  intro k
  induction k with
  | zero => intro _; simp
  | succ j ih =>
    intro hm
    have hexp : List.replicate (j + 1) '\n' ++ u =
        '\n' :: (List.replicate j '\n' ++ u) := by
      rw [List.replicate_succ]
      simp
    rw [hexp, pass4, dif_neg]
    · rw [ih (fun hcon => hm ⟨by omega, hcon.2⟩), List.replicate_succ]
      simp
    · rintro ⟨h1, h2⟩
      rw [show ('\n' :: (List.replicate j '\n' ++ u)) =
        List.replicate (j + 1) '\n' ++ u from hexp.symm] at h2
      rw [dropWhileNlRep hu (j + 1)] at h2
      cases j with
      | zero =>
        have h' := congrArg (fun x => x.tail.head?) h1
        simp at h'
        cases u with
        | nil => simp at h'
        | cons u0 u' =>
          simp at h'
          exact hu (by simp [h'])
      | succ i => exact hm ⟨by omega, h2⟩

/-- Fixpoint: pass 4 is the identity on strings without a double newline
followed by a list marker. -/
theorem pass4Fix : ∀ l : Str,
    ¬ hasSub ('\n' :: '\n' :: '-' :: ' ' :: []) l →
    ¬ hasSub ('\n' :: '\n' :: '*' :: ' ' :: []) l → pass4 l = l := by
  have aux : ∀ (n : Nat) (l : Str), l.length ≤ n →
      ¬ hasSub ('\n' :: '\n' :: '-' :: ' ' :: []) l →
      ¬ hasSub ('\n' :: '\n' :: '*' :: ' ' :: []) l → pass4 l = l := by
    intro n
    induction n with
    | zero =>
      intro l hl _ _
      have : l = [] := List.eq_nil_of_length_eq_zero (by omega)
      subst this
      simp [pass4]
    | succ n ih =>
      intro l hl hnoD hnoS
      rcases strDecomp l with rfl | ⟨c, rest, rfl, hc⟩ | ⟨k, u, rfl, hu⟩
      · simp [pass4]
      · rw [pass4_cons_nonNl hc]
        rw [ih rest (by simp at hl; omega) (fun h => hnoD (hasSubCons c h))
          (fun h => hnoS (hasSubCons c h))]
      · by_cases hhit : 2 ≤ k + 1 ∧
            (u.take 2 = "- ".data ∨ u.take 2 = "* ".data)
        · exfalso
          obtain ⟨hk2, ht⟩ := hhit
          have hsplit : List.replicate (k + 1) '\n' =
              List.replicate (k - 1) '\n' ++ ['\n', '\n'] := by
            rw [show (['\n', '\n'] : Str) = List.replicate 2 '\n' from rfl,
              ← List.replicate_add]
            congr 1
            omega
          rcases ht with ht | ht
          · apply hnoD
            refine ⟨List.replicate (k - 1) '\n', u.drop 2, ?_⟩
            have husplit : u = "- ".data ++ u.drop 2 := by
              conv_lhs => rw [← List.take_append_drop 2 u]
              rw [ht]
            rw [hsplit, husplit]
            simp
          · apply hnoS
            refine ⟨List.replicate (k - 1) '\n', u.drop 2, ?_⟩
            have husplit : u = "* ".data ++ u.drop 2 := by
              conv_lhs => rw [← List.take_append_drop 2 u]
              rw [ht]
            rw [hsplit, husplit]
            simp
        · rw [pass4_run_miss hu (k + 1) hhit]
          have hlu : u.length ≤ n := by
            rw [List.length_append, List.length_replicate] at hl
            omega
          rw [ih u hlu (fun h => hnoD (hasSub_append_left _ _ h))
            (fun h => hnoS (hasSub_append_left _ _ h))]
  exact fun l => aux l.length l le_rfl

/-- Establishment: the output of pass 4 has no double newline followed by
a list marker (for either marker character). -/
theorem pass4Est (m : Char) (hm : m = '-' ∨ m = '*') : ∀ l : Str,
    ¬ hasSub ('\n' :: '\n' :: m :: ' ' :: []) (pass4 l) := by
  have hw0n : m ≠ '\n' := by rcases hm with rfl | rfl <;> decide
  have hcons : ∀ c ∈ (m :: ' ' :: []), ∀ rest,
      pass4 (c :: rest) = c :: pass4 rest := by
    intro c hc rest
    refine pass4_cons_nonNl ?_ rest
    intro he
    subst he
    rcases hm with rfl | rfl <;> simp at hc
  have aux : ∀ (n : Nat) (l : Str), l.length ≤ n →
      ¬ hasSub ('\n' :: '\n' :: m :: ' ' :: []) (pass4 l) := by
    intro n
    induction n with
    | zero =>
      intro l hl
      have : l = [] := List.eq_nil_of_length_eq_zero (by omega)
      subst this
      intro h
      simp [pass4] at h
      exact absurd (hasSubNil h) (by simp)
    | succ n ih =>
      intro l hl
      rcases strDecomp l with rfl | ⟨c, rest, rfl, hc⟩ | ⟨k, u, rfl, hu⟩
      · intro h
        simp [pass4] at h
        exact absurd (hasSubNil h) (by simp)
      · rw [pass4_cons_nonNl hc]
        intro h
        rcases hasSubConsElim h with ⟨b, hb⟩ | h'
        · injection hb with h1 _
          exact hc h1
        · exact ih rest (by simp at hl; omega) h'
      · by_cases hhit : 2 ≤ k + 1 ∧
            (u.take 2 = "- ".data ∨ u.take 2 = "* ".data)
        · obtain ⟨hk2, ht⟩ := hhit
          rw [show k + 1 = (k - 1) + 2 by omega,
            pass4_run_hit hu ht (k - 1)]
          intro h
          rcases hasSubConsElim h with ⟨b, hb⟩ | h'
          · injection hb with _ h2
            have h3 := congrArg List.head? h2
            rcases ht with ht | ht <;> rw [ht] at h3 <;> simp at h3
          · have hlen : (u.drop 2).length ≤ n := by
              rw [List.length_append, List.length_replicate] at hl
              have := List.length_drop 2 u
              omega
            rcases ht with ht | ht <;> rw [ht] at h'
            · exact ih (u.drop 2) hlen
                (hasSubNlStartElim rfl "- ".data (by decide) h')
            · exact ih (u.drop 2) hlen
                (hasSubNlStartElim rfl "* ".data (by decide) h')
        · rw [pass4_run_miss hu (k + 1) hhit]
          intro h
          have hu' : (pass4 u).head? ≠ some '\n' := by
            rw [pass4_head]
            exact hu
          rcases hasSubNlNlRepElim (w := m :: ' ' :: []) rfl hw0n hu'
              (k + 1) h with ⟨hk, b, hb⟩ | h'
          · obtain ⟨b', rfl⟩ := prefReflGen pass4 pass4_head (m :: ' ' :: [])
              hcons u b hb
            refine hhit ⟨hk, ?_⟩
            rcases hm with rfl | rfl
            · left; simp [List.take]
            · right; simp [List.take]
          · exact ih u (by
              rw [List.length_append, List.length_replicate] at hl
              omega) h'
  exact fun l => aux l.length l le_rfl


/-- Unfolding: pass 5 copies a head that is not a list marker. -/
theorem pass5_cons_nonMarker {c : Char} (hc : ¬ (c = '-' ∨ c = '*'))
    (rest : Str) : pass5 (c :: rest) = c :: pass5 rest := by
  rw [pass5, dif_neg]
  rintro ⟨h1, _⟩
  exact hc h1

/-- Pass 5 copies a newline head. -/
theorem pass5NlCons (m : Str) : pass5 ('\n' :: m) = '\n' :: pass5 m :=
  pass5_cons_nonMarker (by decide) m

/-- Pass 5 preserves the head character. -/
theorem pass5_head (l : Str) : (pass5 l).head? = l.head? := by
  cases l with
  | nil => simp [pass5]
  | cons c rest =>
    rw [pass5]
    split
    · simp
    · simp

/-- The second character of the output of pass 5 on a nonempty string is
the second character of the input. -/
theorem pass5_tail_head (x : Char) (r : Str) :
    (pass5 (x :: r)).tail.head? = r.head? := by
  rw [pass5]
  split
  · rename_i h
    cases r with
    | nil => simp at h
    | cons a r₁ =>
      by_cases pa : a = '\n'
      · subst pa
        exact absurd (by simp [List.takeWhile_cons]) h.2.1
      · rw [List.takeWhile_cons_of_pos (by simp [pa])]
        simp
  · simp [pass5_head]

/-- Reflection of a line pattern through pass 5: when the output starts
with a newline-free nonempty block followed by two newlines, the input
line is nonempty and is followed by two newlines. -/
theorem pass5PatRefl : ∀ (w : Str), (∀ c ∈ w, c ≠ '\n') →
    ∀ (rest b : Str), w ≠ [] → pass5 rest = w ++ '\n' :: '\n' :: b →
    rest.takeWhile (· ≠ '\n') ≠ [] ∧
      (rest.dropWhile (· ≠ '\n')).take 2 = "\n\n".data := by
  intro w
  induction w with
  | nil =>
    intro _ rest b hne _
    exact absurd rfl hne
  | cons w0 w' ih =>
    intro hw rest b _ hp
    have hh : rest.head? = some w0 := by
      rw [← pass5_head, hp]
      simp
    obtain ⟨rest', rfl⟩ : ∃ r, rest = w0 :: r := by
      cases rest with
      | nil => simp at hh
      | cons x xs =>
        simp at hh
        exact ⟨xs, by rw [hh]⟩
    have hw0 : w0 ≠ '\n' := hw w0 (by simp)
    by_cases hcond : (w0 = '-' ∨ w0 = '*') ∧
        rest'.takeWhile (· ≠ '\n') ≠ [] ∧
        (rest'.dropWhile (· ≠ '\n')).take 2 = "\n\n".data
    · exfalso
      rw [pass5, dif_pos hcond] at hp
      have hx : (pass5 ((rest'.dropWhile (· ≠ '\n')).dropWhile
          (· = '\n'))).head? ≠ some '\n' := by
        rw [pass5_head]
        have := List.head?_dropWhile_not (· = '\n')
          (rest'.dropWhile (· ≠ '\n'))
        intro hcon
        rw [hcon] at this
        simp at this
      refine nlNlPatPrefElim hx (w0 :: w')
        (w0 :: rest'.takeWhile (· ≠ '\n')) hw ?_ b (by simpa using hp)
      intro d hd
      rcases List.mem_cons.mp hd with rfl | hd'
      · exact hw0
      · have := List.mem_takeWhile_imp hd'
        simpa using this
    · rw [pass5, dif_neg hcond] at hp
      simp only [List.cons_append] at hp
      injection hp with _ hp2
      cases w' with
      | nil =>
        have hh1 : rest'.head? = some '\n' := by
          rw [← pass5_head, hp2]
          simp
        obtain ⟨r2, rfl⟩ : ∃ r, rest' = '\n' :: r := by
          cases rest' with
          | nil => simp at hh1
          | cons x xs =>
            simp at hh1
            exact ⟨xs, by rw [hh1]⟩
        rw [pass5NlCons] at hp2
        injection hp2 with _ hp3
        have hh2 : r2.head? = some '\n' := by
          rw [← pass5_head, hp3]
          simp
        obtain ⟨r3, rfl⟩ : ∃ r, r2 = '\n' :: r := by
          cases r2 with
          | nil => simp at hh2
          | cons x xs =>
            simp at hh2
            exact ⟨xs, by rw [hh2]⟩
        constructor
        · rw [List.takeWhile_cons_of_pos (by simp [hw0])]
          simp
        · rw [List.dropWhile_cons_of_pos (by simp [hw0]),
            List.dropWhile_cons_of_neg (by simp)]
          simp [List.take]
      | cons w1 w'' =>
        have hres := ih (fun c hc => hw c (by simp [hc])) rest' b
          (by simp) hp2
        constructor
        · rw [List.takeWhile_cons_of_pos (by simp [hw0])]
          simp
        · rw [List.dropWhile_cons_of_pos (by simp [hw0])]
          exact hres.2

/-- Fixpoint: pass 5 is the identity on strings without a marker-led line
followed by a double newline. -/
theorem pass5Fix : ∀ l : Str,
    (∀ (m : Char) (w : Str), (m = '-' ∨ m = '*') → w ≠ [] →
      (∀ c ∈ w, c ≠ '\n') → ¬ hasSub (m :: (w ++ '\n' :: '\n' :: [])) l) →
    pass5 l = l := by
  intro l
  induction l with
  | nil =>
    intro _
    simp [pass5]
  | cons c rest ih =>
    intro hno
    by_cases hcond : (c = '-' ∨ c = '*') ∧ rest.takeWhile (· ≠ '\n') ≠ [] ∧
        (rest.dropWhile (· ≠ '\n')).take 2 = "\n\n".data
    · exfalso
      refine hno c (rest.takeWhile (· ≠ '\n')) hcond.1 hcond.2.1
        (by
          intro d hd
          have := List.mem_takeWhile_imp hd
          simpa using this) ?_
      refine hasSubOfPref ⟨(rest.dropWhile (· ≠ '\n')).drop 2, ?_⟩
      have h2 : rest.dropWhile (· ≠ '\n') =
          "\n\n".data ++ ((rest.dropWhile (· ≠ '\n')).drop 2) := by
        conv_lhs => rw [← List.take_append_drop 2 (rest.dropWhile (· ≠ '\n'))]
        rw [hcond.2.2]
      conv_lhs => rw [show rest = rest.takeWhile (· ≠ '\n') ++
        rest.dropWhile (· ≠ '\n') from
        (List.takeWhile_append_dropWhile _ _).symm]
      rw [h2]
      simp
    · rw [pass5, dif_neg hcond]
      rw [ih (fun m w h1 h2 h3 h => hno m w h1 h2 h3 (hasSubCons c h))]

/-- Establishment: the output of pass 5 has no marker-led nonempty line
followed by a double newline. -/
theorem pass5Est : ∀ (l : Str) (m : Char) (w : Str), (m = '-' ∨ m = '*') →
    w ≠ [] → (∀ c ∈ w, c ≠ '\n') →
    ¬ hasSub (m :: (w ++ '\n' :: '\n' :: [])) (pass5 l) := by
  have aux : ∀ (n : Nat) (l : Str), l.length ≤ n → ∀ (m : Char) (w : Str),
      (m = '-' ∨ m = '*') → w ≠ [] → (∀ c ∈ w, c ≠ '\n') →
      ¬ hasSub (m :: (w ++ '\n' :: '\n' :: [])) (pass5 l) := by
    intro n
    induction n with
    | zero =>
      intro l hl m w _ _ _ h
      have : l = [] := List.eq_nil_of_length_eq_zero (by omega)
      subst this
      simp [pass5] at h
      exact absurd (hasSubNil h) (by simp)
    | succ n ih =>
      intro l hl m w hm hwne hw h
      cases l with
      | nil =>
        simp [pass5] at h
        exact absurd (hasSubNil h) (by simp)
      | cons c rest =>
        have hmn : m ≠ '\n' := by rcases hm with rfl | rfl <;> decide
        by_cases hcond : (c = '-' ∨ c = '*') ∧
            rest.takeWhile (· ≠ '\n') ≠ [] ∧
            (rest.dropWhile (· ≠ '\n')).take 2 = "\n\n".data
        · rw [pass5, dif_pos hcond] at h
          have hx : (pass5 ((rest.dropWhile (· ≠ '\n')).dropWhile
              (· = '\n'))).head? ≠ some '\n' := by
            rw [pass5_head]
            have := List.head?_dropWhile_not (· = '\n')
              (rest.dropWhile (· ≠ '\n'))
            intro hcon
            rw [hcon] at this
            simp at this
          have h' : hasSub ((m :: w) ++ '\n' :: '\n' :: [])
              ((c :: rest.takeWhile (· ≠ '\n')) ++
                '\n' :: pass5 ((rest.dropWhile (· ≠ '\n')).dropWhile
                  (· = '\n'))) := by
            simpa using h
          have h'' := hasSubNlNlPatElim (w := m :: w)
            (by
              intro d hd
              rcases List.mem_cons.mp hd with rfl | hd'
              · exact hmn
              · exact hw d hd')
            hx (c :: rest.takeWhile (· ≠ '\n'))
            (by
              intro d hd
              rcases List.mem_cons.mp hd with rfl | hd'
              · rcases hcond.1 with rfl | rfl <;> decide
              · have := List.mem_takeWhile_imp hd'
                simpa using this)
            h'
          refine ih ((rest.dropWhile (· ≠ '\n')).dropWhile (· = '\n')) ?_
            m w hm hwne hw (by simpa using h'')
          have h1 := dropWhileLen (fun x => decide (x = '\n'))
            (rest.dropWhile (· ≠ '\n'))
          have h2 := dropWhileLen (fun x => decide (x ≠ '\n')) rest
          simp at hl
          omega
        · rw [pass5, dif_neg hcond] at h
          rcases hasSubConsElim h with ⟨b, hb⟩ | h'
          · have hb' : c :: pass5 rest = m :: (w ++ '\n' :: '\n' :: b) := by
              simpa using hb
            injection hb' with hb1 hb2
            have hres := pass5PatRefl w hw rest b hwne hb2
            exact hcond ⟨by rw [hb1]; exact hm, hres.1, hres.2⟩
          · exact ih rest (by simp at hl; omega) m w hm hwne hw h'
  exact fun l => aux l.length l le_rfl


/-- Prefix reflection with remainder: a head-preserving transformation
that copies the characters of `t` reflects the prefix `t` from output to
input, and the transformation maps the input remainder to the output
remainder. -/
theorem prefReflGen₂ (P : Str → Str)
    (hhead : ∀ m, (P m).head? = m.head?) :
    ∀ t : Str, (∀ c ∈ t, ∀ rest, P (c :: rest) = c :: P rest) →
      ∀ m b, P m = t ++ b → ∃ b', m = t ++ b' ∧ P b' = b := by
  intro t
  induction t with
  | nil =>
    intro _ m b hp
    exact ⟨m, rfl, by simpa using hp⟩
  | cons c t' iht =>
    intro hcons m b hp
    have hh : m.head? = some c := by
      rw [← hhead m, hp]
      simp
    obtain ⟨m₂, rfl⟩ : ∃ m₂, m = c :: m₂ := by
      cases m with
      | nil => simp at hh
      | cons x xs =>
        simp at hh
        exact ⟨xs, by rw [hh]⟩
    rw [hcons c (by simp) m₂] at hp
    injection hp with _ hp₂
    obtain ⟨b', rfl, hpb⟩ := iht (fun d hd rest => hcons d (by simp [hd]) rest)
      m₂ b hp₂
    exact ⟨b', rfl, hpb⟩

/-- Reflection of a double-newline head through pass 4. -/
theorem pass4NlNlRefl {m b : Str} (h : pass4 m = '\n' :: '\n' :: b) :
    ∃ b', m = '\n' :: '\n' :: b' := by
  have hh : m.head? = some '\n' := by
    rw [← pass4_head, h]
    simp
  obtain ⟨m', rfl⟩ : ∃ r, m = '\n' :: r := by
    cases m with
    | nil => simp at hh
    | cons x xs =>
      simp at hh
      exact ⟨xs, by rw [hh]⟩
  by_cases hcond : ('\n' :: m').take 2 = "\n\n".data ∧
      ((('\n' :: m').dropWhile (· = '\n')).take 2 = "- ".data ∨
       (('\n' :: m').dropWhile (· = '\n')).take 2 = "* ".data)
  · rw [pass4, dif_pos hcond] at h
    injection h with _ h2
    have h3 := congrArg List.head? h2
    rcases hcond.2 with ht | ht <;> rw [ht] at h3 <;> simp at h3
  · rw [pass4, dif_neg hcond] at h
    injection h with _ h2
    have hh2 : m'.head? = some '\n' := by
      rw [← pass4_head, h2]
      simp
    obtain ⟨m'', rfl⟩ : ∃ r, m' = '\n' :: r := by
      cases m' with
      | nil => simp at hh2
      | cons x xs =>
        simp at hh2
        exact ⟨xs, by rw [hh2]⟩
    exact ⟨m'', rfl⟩

/-- Reflection of a triple-backtick head through pass 3. -/
theorem pass3Ticks3 {m b : Str}
    (h : pass3 m = tickChar :: tickChar :: tickChar :: b) :
    ∃ b', m = tickChar :: tickChar :: tickChar :: b' := by
  obtain ⟨m₂, rfl⟩ := pass3Ticks1 (b := tickChar :: tickChar :: b) h
  by_cases hcond : (tickChar :: m₂).take 5 = "```\n\n".data
  · have hcond' : (tickChar :: m₂).take 5 =
        tickChar :: tickChar :: tickChar :: '\n' :: '\n' :: [] := by
      rw [hcond]
      decide
    rw [List.take_succ_cons] at hcond'
    injection hcond' with _ h4
    cases m₂ with
    | nil => simp at h4
    | cons a m₃ =>
      rw [List.take_succ_cons] at h4
      injection h4 with ha h5
      cases m₃ with
      | nil => simp at h5
      | cons a₂ m₄ =>
        rw [List.take_succ_cons] at h5
        injection h5 with ha₂ _
        exact ⟨m₄, by rw [ha, ha₂]⟩
  · rw [pass3, if_neg hcond] at h
    injection h with _ h₂
    obtain ⟨m₃, rfl⟩ := pass3Ticks1 (b := tickChar :: b) h₂
    by_cases hcond₂ : (tickChar :: m₃).take 5 = "```\n\n".data
    · have hcond₂' : (tickChar :: m₃).take 5 =
          tickChar :: tickChar :: tickChar :: '\n' :: '\n' :: [] := by
        rw [hcond₂]
        decide
      rw [List.take_succ_cons] at hcond₂'
      injection hcond₂' with _ h4
      cases m₃ with
      | nil => simp at h4
      | cons a m₄ =>
        rw [List.take_succ_cons] at h4
        injection h4 with ha _
        exact ⟨m₄, by rw [ha]⟩
    · rw [pass3, if_neg hcond₂] at h₂
      injection h₂ with _ h₃
      obtain ⟨m₄, rfl⟩ := pass3Ticks1 (b := b) h₃
      exact ⟨m₄, rfl⟩

/-- Preservation: pass 2 creates no triple newline. -/
theorem pass2PresNl3 : ∀ l : Str, ¬ hasSub ['\n', '\n', '\n'] l →
    ¬ hasSub ['\n', '\n', '\n'] (pass2 l) := by
  have aux : ∀ (n : Nat) (l : Str), l.length ≤ n →
      ¬ hasSub ['\n', '\n', '\n'] l →
      ¬ hasSub ['\n', '\n', '\n'] (pass2 l) := by
    intro n
    induction n with
    | zero =>
      intro l hl _ h
      have : l = [] := List.eq_nil_of_length_eq_zero (by omega)
      subst this
      simp [pass2] at h
      exact absurd (hasSubNil h) (by simp)
    | succ n ih =>
      intro l hl hno h
      rcases strDecomp l with rfl | ⟨c, rest, rfl, hc⟩ | ⟨k, u, rfl, hu⟩
      · simp [pass2] at h
        exact absurd (hasSubNil h) (by simp)
      · rw [pass2_cons_nonNl hc] at h
        rcases hasSubConsElim h with ⟨b, hb⟩ | h'
        · injection hb with h1 _
          exact hc h1
        · exact ih rest (by simp at hl; omega)
            (fun hs => hno (hasSubCons c hs)) h'
      · by_cases hhit : 2 ≤ k + 1 ∧ u.take 3 = "```".data
        · obtain ⟨hk2, ht⟩ := hhit
          rw [show k + 1 = (k - 1) + 2 by omega,
            pass2_run_hit hu ht (k - 1)] at h
          rcases hasSubConsElim h with ⟨b, hb⟩ | h'
          · injection hb with _ h2
            have h3 := congrArg List.head? h2
            simp at h3
          · have h'' := hasSubNlStartElim (show (['\n', '\n', '\n'] : Str).head? = some '\n' from rfl)
              "```".data (by decide) h'
            refine ih (u.drop 3) ?_ ?_ h''
            · rw [List.length_append, List.length_replicate] at hl
              have := List.length_drop 3 u
              omega
            · intro hs
              exact hno (hasSub_append_left _ _ (hasSubDrop hs))
        · rw [pass2_run_miss hu (k + 1) hhit] at h
          have hu' : (pass2 u).head? ≠ some '\n' := by
            rw [pass2_head]
            exact hu
          rcases hasSubNl3RepElim hu' (k + 1) h with hk | h'
          · apply hno
            refine ⟨[], List.replicate (k - 2) '\n' ++ u, ?_⟩
            have hsplit : List.replicate (k + 1) '\n' =
                ['\n', '\n', '\n'] ++ List.replicate (k - 2) '\n' := by
              rw [show (['\n', '\n', '\n'] : Str) =
                List.replicate 3 '\n' from rfl, ← List.replicate_add]
              congr 1
              omega
            rw [hsplit]
            simp
          · exact ih u (by
              rw [List.length_append, List.length_replicate] at hl
              omega) (fun hs => hno (hasSub_append_left _ _ hs)) h'
  exact fun l => aux l.length l le_rfl

/-- Preservation: pass 3 creates no triple newline. -/
theorem pass3PresNl3 : ∀ l : Str, ¬ hasSub ['\n', '\n', '\n'] l →
    ¬ hasSub ['\n', '\n', '\n'] (pass3 l) := by
  have aux : ∀ (n : Nat) (l : Str), l.length ≤ n →
      ¬ hasSub ['\n', '\n', '\n'] l →
      ¬ hasSub ['\n', '\n', '\n'] (pass3 l) := by
    intro n
    induction n with
    | zero =>
      intro l hl _ h
      have : l = [] := List.eq_nil_of_length_eq_zero (by omega)
      subst this
      simp [pass3] at h
      exact absurd (hasSubNil h) (by simp)
    | succ n ih =>
      intro l hl hno h
      cases l with
      | nil =>
        simp [pass3] at h
        exact absurd (hasSubNil h) (by simp)
      | cons c rest =>
        by_cases hcond : (c :: rest).take 5 = "```\n\n".data
        · rw [pass3, if_pos hcond] at h
          have hxh : (pass3 ((rest.drop 2).dropWhile (· = '\n'))).head? ≠
              some '\n' := by
            rw [pass3_head]
            have := List.head?_dropWhile_not (· = '\n') (rest.drop 2)
            intro hcon
            rw [hcon] at this
            simp at this
          have h1 : hasSub ['\n', '\n', '\n']
              ('\n' :: pass3 ((rest.drop 2).dropWhile (· = '\n'))) :=
            hasSubNlStartElim (show (['\n', '\n', '\n'] : Str).head? = some '\n' from rfl) "```".data
              (by decide) (by simpa using h)
          rcases hasSubConsElim h1 with ⟨b, hb⟩ | h'
          · injection hb with _ h2
            exact hxh (by rw [h2]; simp)
          · refine ih ((rest.drop 2).dropWhile (· = '\n')) ?_ ?_ h'
            · have h1l := dropWhileLen (fun x => decide (x = '\n'))
                (rest.drop 2)
              have h2l := List.length_drop 2 rest
              simp at hl
              omega
            · intro hs
              exact hno (hasSubCons c (hasSubDrop (hasSubDropWhile hs)))
        · rw [pass3, if_neg hcond] at h
          rcases hasSubConsElim h with ⟨b, hb⟩ | h'
          · injection hb with hb1 hb2
            obtain ⟨b', rfl⟩ := prefReflGen pass3 pass3_head ['\n', '\n']
              (by
                intro d hd r
                have hdn : d = '\n' := by simpa using hd
                rw [hdn, pass3NlCons]) rest b hb2
            apply hno
            refine ⟨[], b', ?_⟩
            rw [hb1]
            simp
          · exact ih rest (by simp at hl; omega)
              (fun hs => hno (hasSubCons c hs)) h'
  exact fun l => aux l.length l le_rfl


/-- Preservation: pass 4 creates no triple newline. -/
theorem pass4PresNl3 : ∀ l : Str, ¬ hasSub ['\n', '\n', '\n'] l →
    ¬ hasSub ['\n', '\n', '\n'] (pass4 l) := by
  have aux : ∀ (n : Nat) (l : Str), l.length ≤ n →
      ¬ hasSub ['\n', '\n', '\n'] l →
      ¬ hasSub ['\n', '\n', '\n'] (pass4 l) := by
    intro n
    induction n with
    | zero =>
      intro l hl _ h
      have : l = [] := List.eq_nil_of_length_eq_zero (by omega)
      subst this
      simp [pass4] at h
      exact absurd (hasSubNil h) (by simp)
    | succ n ih =>
      intro l hl hno h
      rcases strDecomp l with rfl | ⟨c, rest, rfl, hc⟩ | ⟨k, u, rfl, hu⟩
      · simp [pass4] at h
        exact absurd (hasSubNil h) (by simp)
      · rw [pass4_cons_nonNl hc] at h
        rcases hasSubConsElim h with ⟨b, hb⟩ | h'
        · injection hb with h1 _
          exact hc h1
        · exact ih rest (by simp at hl; omega)
            (fun hs => hno (hasSubCons c hs)) h'
      · by_cases hhit : 2 ≤ k + 1 ∧
            (u.take 2 = "- ".data ∨ u.take 2 = "* ".data)
        · obtain ⟨hk2, ht⟩ := hhit
          rw [show k + 1 = (k - 1) + 2 by omega,
            pass4_run_hit hu ht (k - 1)] at h
          rcases hasSubConsElim h with ⟨b, hb⟩ | h'
          · injection hb with _ h2
            have h3 := congrArg List.head? h2
            rcases ht with ht | ht <;> rw [ht] at h3 <;> simp at h3
          · have hlen : (u.drop 2).length ≤ n := by
              rw [List.length_append, List.length_replicate] at hl
              have := List.length_drop 2 u
              omega
            have hlift : ¬ hasSub ['\n', '\n', '\n'] (u.drop 2) := by
              intro hs
              exact hno (hasSub_append_left _ _ (hasSubDrop hs))
            rcases ht with ht | ht <;> rw [ht] at h'
            · exact ih (u.drop 2) hlen hlift
                (hasSubNlStartElim (show (['\n', '\n', '\n'] : Str).head? = some '\n' from rfl)
                  "- ".data (by decide) h')
            · exact ih (u.drop 2) hlen hlift
                (hasSubNlStartElim (show (['\n', '\n', '\n'] : Str).head? = some '\n' from rfl)
                  "* ".data (by decide) h')
        · rw [pass4_run_miss hu (k + 1) hhit] at h
          have hu' : (pass4 u).head? ≠ some '\n' := by
            rw [pass4_head]
            exact hu
          rcases hasSubNl3RepElim hu' (k + 1) h with hk | h'
          · apply hno
            refine ⟨[], List.replicate (k - 2) '\n' ++ u, ?_⟩
            have hsplit : List.replicate (k + 1) '\n' =
                ['\n', '\n', '\n'] ++ List.replicate (k - 2) '\n' := by
              rw [show (['\n', '\n', '\n'] : Str) =
                List.replicate 3 '\n' from rfl, ← List.replicate_add]
              congr 1
              omega
            rw [hsplit]
            simp
          · exact ih u (by
              rw [List.length_append, List.length_replicate] at hl
              omega) (fun hs => hno (hasSub_append_left _ _ hs)) h'
  exact fun l => aux l.length l le_rfl

/-- Preservation: pass 5 creates no triple newline. -/
theorem pass5PresNl3 : ∀ l : Str, ¬ hasSub ['\n', '\n', '\n'] l →
    ¬ hasSub ['\n', '\n', '\n'] (pass5 l) := by
  have aux : ∀ (n : Nat) (l : Str), l.length ≤ n →
      ¬ hasSub ['\n', '\n', '\n'] l →
      ¬ hasSub ['\n', '\n', '\n'] (pass5 l) := by
    intro n
    induction n with
    | zero =>
      intro l hl _ h
      have : l = [] := List.eq_nil_of_length_eq_zero (by omega)
      subst this
      simp [pass5] at h
      exact absurd (hasSubNil h) (by simp)
    | succ n ih =>
      intro l hl hno h
      cases l with
      | nil =>
        simp [pass5] at h
        exact absurd (hasSubNil h) (by simp)
      | cons c rest =>
        by_cases hcond : (c = '-' ∨ c = '*') ∧
            rest.takeWhile (· ≠ '\n') ≠ [] ∧
            (rest.dropWhile (· ≠ '\n')).take 2 = "\n\n".data
        · rw [pass5, dif_pos hcond] at h
          have hxh : (pass5 ((rest.dropWhile (· ≠ '\n')).dropWhile
              (· = '\n'))).head? ≠ some '\n' := by
            rw [pass5_head]
            have := List.head?_dropWhile_not (· = '\n')
              (rest.dropWhile (· ≠ '\n'))
            intro hcon
            rw [hcon] at this
            simp at this
          rcases hasSubConsElim h with ⟨b, hb⟩ | h'
          · injection hb with hb1 _
            rcases hcond.1 with rfl | rfl <;> exact absurd hb1 (by decide)
          · have h1 : hasSub ['\n', '\n', '\n']
                ('\n' :: pass5 ((rest.dropWhile (· ≠ '\n')).dropWhile
                  (· = '\n'))) :=
              hasSubNlStartElim (show (['\n', '\n', '\n'] : Str).head? = some '\n' from rfl)
                (rest.takeWhile (· ≠ '\n'))
                (by
                  intro d hd
                  have := List.mem_takeWhile_imp hd
                  simpa using this) h'
            rcases hasSubConsElim h1 with ⟨b, hb⟩ | h''
            · injection hb with _ h2
              exact hxh (by rw [h2]; simp)
            · refine ih ((rest.dropWhile (· ≠ '\n')).dropWhile (· = '\n'))
                ?_ ?_ h''
              · have h1l := dropWhileLen (fun x => decide (x = '\n'))
                  (rest.dropWhile (· ≠ '\n'))
                have h2l := dropWhileLen (fun x => decide (x ≠ '\n')) rest
                simp at hl
                omega
              · intro hs
                exact hno (hasSubCons c (hasSubDropWhile (hasSubDropWhile hs)))
        · rw [pass5, dif_neg hcond] at h
          rcases hasSubConsElim h with ⟨b, hb⟩ | h'
          · injection hb with hb1 hb2
            obtain ⟨b', rfl⟩ := prefReflGen pass5 pass5_head ['\n', '\n']
              (by
                intro d hd r
                have hdn : d = '\n' := by simpa using hd
                rw [hdn, pass5NlCons]) rest b hb2
            apply hno
            refine ⟨[], b', ?_⟩
            rw [hb1]
            simp
          · exact ih rest (by simp at hl; omega)
              (fun hs => hno (hasSubCons c hs)) h'
  exact fun l => aux l.length l le_rfl

/-- Preservation: pass 3 creates no double newline followed by a fence. -/
theorem pass3PresOpen : ∀ l : Str,
    ¬ hasSub ('\n' :: '\n' :: "```".data) l →
    ¬ hasSub ('\n' :: '\n' :: "```".data) (pass3 l) := by
  have aux : ∀ (n : Nat) (l : Str), l.length ≤ n →
      ¬ hasSub ('\n' :: '\n' :: "```".data) l →
      ¬ hasSub ('\n' :: '\n' :: "```".data) (pass3 l) := by
    intro n
    induction n with
    | zero =>
      intro l hl _ h
      have : l = [] := List.eq_nil_of_length_eq_zero (by omega)
      subst this
      simp [pass3] at h
      exact absurd (hasSubNil h) (by simp)
    | succ n ih =>
      intro l hl hno h
      cases l with
      | nil =>
        simp [pass3] at h
        exact absurd (hasSubNil h) (by simp)
      | cons c rest =>
        by_cases hcond : (c :: rest).take 5 = "```\n\n".data
        · rw [pass3, if_pos hcond] at h
          have hxh : (pass3 ((rest.drop 2).dropWhile (· = '\n'))).head? ≠
              some '\n' := by
            rw [pass3_head]
            have := List.head?_dropWhile_not (· = '\n') (rest.drop 2)
            intro hcon
            rw [hcon] at this
            simp at this
          have h1 : hasSub ('\n' :: '\n' :: "```".data)
              ('\n' :: pass3 ((rest.drop 2).dropWhile (· = '\n'))) :=
            hasSubNlStartElim (show ('\n' :: '\n' :: "```".data : Str).head? = some '\n' from rfl)
              "```".data (by decide) (by simpa using h)
          rcases hasSubConsElim h1 with ⟨b, hb⟩ | h'
          · injection hb with _ h2
            exact hxh (by rw [h2]; simp)
          · refine ih ((rest.drop 2).dropWhile (· = '\n')) ?_ ?_ h'
            · have h1l := dropWhileLen (fun x => decide (x = '\n'))
                (rest.drop 2)
              have h2l := List.length_drop 2 rest
              simp at hl
              omega
            · intro hs
              exact hno (hasSubCons c (hasSubDrop (hasSubDropWhile hs)))
        · rw [pass3, if_neg hcond] at h
          rcases hasSubConsElim h with ⟨b, hb⟩ | h'
          · injection hb with hb1 hb2
            have hb2' : pass3 rest =
                '\n' :: tickChar :: tickChar :: tickChar :: b := by
              simpa using hb2
            have hh : rest.head? = some '\n' := by
              rw [← pass3_head, hb2']
              simp
            obtain ⟨r', rfl⟩ : ∃ r, rest = '\n' :: r := by
              cases rest with
              | nil => simp at hh
              | cons x xs =>
                simp at hh
                exact ⟨xs, by rw [hh]⟩
            rw [pass3NlCons] at hb2'
            injection hb2' with _ hb3
            obtain ⟨b', rfl⟩ := pass3Ticks3 hb3
            apply hno
            refine ⟨[], b', ?_⟩
            rw [hb1]
            simp
            decide
          · exact ih rest (by simp at hl; omega)
              (fun hs => hno (hasSubCons c hs)) h'
  exact fun l => aux l.length l le_rfl

/-- Preservation: pass 4 creates no double newline followed by a fence. -/
theorem pass4PresOpen : ∀ l : Str,
    ¬ hasSub ('\n' :: '\n' :: "```".data) l →
    ¬ hasSub ('\n' :: '\n' :: "```".data) (pass4 l) := by
  have htick : ∀ c ∈ ("```".data : Str), ∀ rest,
      pass4 (c :: rest) = c :: pass4 rest := by
    intro c hc rest
    refine pass4_cons_nonNl ?_ rest
    intro he
    subst he
    exact absurd hc (by decide)
  have aux : ∀ (n : Nat) (l : Str), l.length ≤ n →
      ¬ hasSub ('\n' :: '\n' :: "```".data) l →
      ¬ hasSub ('\n' :: '\n' :: "```".data) (pass4 l) := by
    intro n
    induction n with
    | zero =>
      intro l hl _ h
      have : l = [] := List.eq_nil_of_length_eq_zero (by omega)
      subst this
      simp [pass4] at h
      exact absurd (hasSubNil h) (by simp)
    | succ n ih =>
      intro l hl hno h
      rcases strDecomp l with rfl | ⟨c, rest, rfl, hc⟩ | ⟨k, u, rfl, hu⟩
      · simp [pass4] at h
        exact absurd (hasSubNil h) (by simp)
      · rw [pass4_cons_nonNl hc] at h
        rcases hasSubConsElim h with ⟨b, hb⟩ | h'
        · injection hb with h1 _
          exact hc h1
        · exact ih rest (by simp at hl; omega)
            (fun hs => hno (hasSubCons c hs)) h'
      · by_cases hhit : 2 ≤ k + 1 ∧
            (u.take 2 = "- ".data ∨ u.take 2 = "* ".data)
        · obtain ⟨hk2, ht⟩ := hhit
          rw [show k + 1 = (k - 1) + 2 by omega,
            pass4_run_hit hu ht (k - 1)] at h
          rcases hasSubConsElim h with ⟨b, hb⟩ | h'
          · injection hb with _ h2
            have h3 := congrArg List.head? h2
            rcases ht with ht | ht <;> rw [ht] at h3 <;> simp at h3
          · have hlen : (u.drop 2).length ≤ n := by
              rw [List.length_append, List.length_replicate] at hl
              have := List.length_drop 2 u
              omega
            have hlift : ¬ hasSub ('\n' :: '\n' :: "```".data) (u.drop 2) := by
              intro hs
              exact hno (hasSub_append_left _ _ (hasSubDrop hs))
            rcases ht with ht | ht <;> rw [ht] at h'
            · exact ih (u.drop 2) hlen hlift
                (hasSubNlStartElim (show ('\n' :: '\n' :: "```".data : Str).head? = some '\n' from rfl)
                  "- ".data (by decide) h')
            · exact ih (u.drop 2) hlen hlift
                (hasSubNlStartElim (show ('\n' :: '\n' :: "```".data : Str).head? = some '\n' from rfl)
                  "* ".data (by decide) h')
        · rw [pass4_run_miss hu (k + 1) hhit] at h
          have hu' : (pass4 u).head? ≠ some '\n' := by
            rw [pass4_head]
            exact hu
          rcases hasSubNlNlRepElim (w := "```".data) rfl (by decide) hu'
              (k + 1) h with ⟨hk, b, hb⟩ | h'
          · obtain ⟨b', rfl⟩ := prefReflGen pass4 pass4_head "```".data
              htick u b hb
            apply hno
            refine ⟨List.replicate (k - 1) '\n', b', ?_⟩
            have hsplit : List.replicate (k + 1) '\n' =
                List.replicate (k - 1) '\n' ++ ['\n', '\n'] := by
              rw [show (['\n', '\n'] : Str) = List.replicate 2 '\n' from rfl,
                ← List.replicate_add]
              congr 1
              omega
            rw [hsplit]
            simp
          · exact ih u (by
              rw [List.length_append, List.length_replicate] at hl
              omega) (fun hs => hno (hasSub_append_left _ _ hs)) h'
  exact fun l => aux l.length l le_rfl

/-- Preservation: pass 5 creates no double newline followed by a fence. -/
theorem pass5PresOpen : ∀ l : Str,
    ¬ hasSub ('\n' :: '\n' :: "```".data) l →
    ¬ hasSub ('\n' :: '\n' :: "```".data) (pass5 l) := by
  have htick : ∀ c ∈ (tickChar :: tickChar :: tickChar :: [] : Str), ∀ rest,
      pass5 (c :: rest) = c :: pass5 rest := by
    intro c hc rest
    refine pass5_cons_nonMarker ?_ rest
    intro he
    have hct : c = tickChar := by
      rcases List.mem_cons.mp hc with rfl | hc'
      · rfl
      · rcases List.mem_cons.mp hc' with rfl | hc''
        · rfl
        · simpa using hc''
    subst hct
    rcases he with he | he <;> exact absurd he (by decide)
  have aux : ∀ (n : Nat) (l : Str), l.length ≤ n →
      ¬ hasSub ('\n' :: '\n' :: "```".data) l →
      ¬ hasSub ('\n' :: '\n' :: "```".data) (pass5 l) := by
    intro n
    induction n with
    | zero =>
      intro l hl _ h
      have : l = [] := List.eq_nil_of_length_eq_zero (by omega)
      subst this
      simp [pass5] at h
      exact absurd (hasSubNil h) (by simp)
    | succ n ih =>
      intro l hl hno h
      cases l with
      | nil =>
        simp [pass5] at h
        exact absurd (hasSubNil h) (by simp)
      | cons c rest =>
        by_cases hcond : (c = '-' ∨ c = '*') ∧
            rest.takeWhile (· ≠ '\n') ≠ [] ∧
            (rest.dropWhile (· ≠ '\n')).take 2 = "\n\n".data
        · rw [pass5, dif_pos hcond] at h
          have hxh : (pass5 ((rest.dropWhile (· ≠ '\n')).dropWhile
              (· = '\n'))).head? ≠ some '\n' := by
            rw [pass5_head]
            have := List.head?_dropWhile_not (· = '\n')
              (rest.dropWhile (· ≠ '\n'))
            intro hcon
            rw [hcon] at this
            simp at this
          rcases hasSubConsElim h with ⟨b, hb⟩ | h'
          · injection hb with hb1 _
            rcases hcond.1 with rfl | rfl <;> exact absurd hb1 (by decide)
          · have h1 : hasSub ('\n' :: '\n' :: "```".data)
                ('\n' :: pass5 ((rest.dropWhile (· ≠ '\n')).dropWhile
                  (· = '\n'))) :=
              hasSubNlStartElim (show ('\n' :: '\n' :: "```".data : Str).head? = some '\n' from rfl)
                (rest.takeWhile (· ≠ '\n'))
                (by
                  intro d hd
                  have := List.mem_takeWhile_imp hd
                  simpa using this) h'
            rcases hasSubConsElim h1 with ⟨b, hb⟩ | h''
            · injection hb with _ h2
              exact hxh (by rw [h2]; simp)
            · refine ih ((rest.dropWhile (· ≠ '\n')).dropWhile (· = '\n'))
                ?_ ?_ h''
              · have h1l := dropWhileLen (fun x => decide (x = '\n'))
                  (rest.dropWhile (· ≠ '\n'))
                have h2l := dropWhileLen (fun x => decide (x ≠ '\n')) rest
                simp at hl
                omega
              · intro hs
                exact hno (hasSubCons c (hasSubDropWhile (hasSubDropWhile hs)))
        · rw [pass5, dif_neg hcond] at h
          rcases hasSubConsElim h with ⟨b, hb⟩ | h'
          · injection hb with hb1 hb2
            have hb2' : pass5 rest =
                '\n' :: tickChar :: tickChar :: tickChar :: b := by
              simpa using hb2
            have hh : rest.head? = some '\n' := by
              rw [← pass5_head, hb2']
              simp
            obtain ⟨r', rfl⟩ : ∃ r, rest = '\n' :: r := by
              cases rest with
              | nil => simp at hh
              | cons x xs =>
                simp at hh
                exact ⟨xs, by rw [hh]⟩
            rw [pass5NlCons] at hb2'
            injection hb2' with _ hb3
            obtain ⟨b', rfl⟩ := prefReflGen pass5 pass5_head
              (tickChar :: tickChar :: tickChar :: []) htick r' b hb3
            apply hno
            refine ⟨[], b', ?_⟩
            rw [hb1]
            simp
            decide
          · exact ih rest (by simp at hl; omega)
              (fun hs => hno (hasSubCons c hs)) h'
  exact fun l => aux l.length l le_rfl


/-- Preservation: pass 4 creates no fence followed by a double newline. -/
theorem pass4PresClose : ∀ l : Str,
    ¬ hasSub ("```".data ++ '\n' :: '\n' :: []) l →
    ¬ hasSub ("```".data ++ '\n' :: '\n' :: []) (pass4 l) := by
  have htick : ∀ c ∈ (tickChar :: tickChar :: [] : Str), ∀ rest,
      pass4 (c :: rest) = c :: pass4 rest := by
    intro c hc rest
    refine pass4_cons_nonNl ?_ rest
    intro he
    subst he
    rcases List.mem_cons.mp hc with h | h
    · exact absurd h (by decide)
    · rcases List.mem_cons.mp h with h' | h'
      · exact absurd h' (by decide)
      · simp at h'
  have aux : ∀ (n : Nat) (l : Str), l.length ≤ n →
      ¬ hasSub ("```".data ++ '\n' :: '\n' :: []) l →
      ¬ hasSub ("```".data ++ '\n' :: '\n' :: []) (pass4 l) := by
    intro n
    induction n with
    | zero =>
      intro l hl _ h
      have : l = [] := List.eq_nil_of_length_eq_zero (by omega)
      subst this
      simp [pass4] at h
      exact absurd (hasSubNil h) (by simp)
    | succ n ih =>
      intro l hl hno h
      rcases strDecomp l with rfl | ⟨c, rest, rfl, hc⟩ | ⟨k, u, rfl, hu⟩
      · simp [pass4] at h
        exact absurd (hasSubNil h) (by simp)
      · rw [pass4_cons_nonNl hc] at h
        rcases hasSubConsElim h with ⟨b, hb⟩ | h'
        · have hb' : c :: pass4 rest =
              tickChar :: tickChar :: tickChar :: '\n' :: '\n' :: b := by
            simpa using hb
          injection hb' with hb1 hb2
          obtain ⟨r'', rfl, hp⟩ := prefReflGen₂ pass4 pass4_head
            (tickChar :: tickChar :: []) htick rest ('\n' :: '\n' :: b) hb2
          obtain ⟨r₃, rfl⟩ := pass4NlNlRefl hp
          apply hno
          refine ⟨[], r₃, ?_⟩
          rw [hb1]
          simp
          decide
        · exact ih rest (by simp at hl; omega)
            (fun hs => hno (hasSubCons c hs)) h'
      · by_cases hhit : 2 ≤ k + 1 ∧
            (u.take 2 = "- ".data ∨ u.take 2 = "* ".data)
        · obtain ⟨hk2, ht⟩ := hhit
          rw [show k + 1 = (k - 1) + 2 by omega,
            pass4_run_hit hu ht (k - 1)] at h
          rcases hasSubConsElim h with ⟨b, hb⟩ | h'
          · have hb' : '\n' :: (u.take 2 ++ pass4 (u.drop 2)) =
                tickChar :: tickChar :: tickChar :: '\n' :: '\n' :: b := by
              simpa using hb
            injection hb' with hb1 _
            exact absurd hb1 (by decide)
          · have hlen : (u.drop 2).length ≤ n := by
              rw [List.length_append, List.length_replicate] at hl
              have := List.length_drop 2 u
              omega
            have hlift : ¬ hasSub ("```".data ++ '\n' :: '\n' :: [])
                (u.drop 2) := by
              intro hs
              exact hno (hasSub_append_left _ _ (hasSubDrop hs))
            rcases ht with ht | ht <;> rw [ht] at h'
            · exact ih (u.drop 2) hlen hlift
                (hasSubStartElim (show ("```".data ++ '\n' :: '\n' :: [] : Str).head? = some tickChar from rfl)
                  "- ".data (by decide) h')
            · exact ih (u.drop 2) hlen hlift
                (hasSubStartElim (show ("```".data ++ '\n' :: '\n' :: [] : Str).head? = some tickChar from rfl)
                  "* ".data (by decide) h')
        · rw [pass4_run_miss hu (k + 1) hhit] at h
          have h' := hasSubRepElim
            (show ("```".data ++ '\n' :: '\n' :: [] : Str).head? = some tickChar from rfl) (by decide)
            (k + 1) h
          exact ih u (by
            rw [List.length_append, List.length_replicate] at hl
            omega) (fun hs => hno (hasSub_append_left _ _ hs)) h'
  exact fun l => aux l.length l le_rfl

/-- Preservation: pass 5 creates no fence followed by a double newline. -/
theorem pass5PresClose : ∀ l : Str,
    ¬ hasSub ("```".data ++ '\n' :: '\n' :: []) l →
    ¬ hasSub ("```".data ++ '\n' :: '\n' :: []) (pass5 l) := by
  have htick : ∀ c ∈ (tickChar :: tickChar :: [] : Str), ∀ rest,
      pass5 (c :: rest) = c :: pass5 rest := by
    intro c hc rest
    refine pass5_cons_nonMarker ?_ rest
    intro he
    have hct : c = tickChar := by
      rcases List.mem_cons.mp hc with rfl | hc'
      · rfl
      · simpa using hc'
    subst hct
    rcases he with he | he <;> exact absurd he (by decide)
  have aux : ∀ (n : Nat) (l : Str), l.length ≤ n →
      ¬ hasSub ("```".data ++ '\n' :: '\n' :: []) l →
      ¬ hasSub ("```".data ++ '\n' :: '\n' :: []) (pass5 l) := by
    intro n
    induction n with
    | zero =>
      intro l hl _ h
      have : l = [] := List.eq_nil_of_length_eq_zero (by omega)
      subst this
      simp [pass5] at h
      exact absurd (hasSubNil h) (by simp)
    | succ n ih =>
      intro l hl hno h
      cases l with
      | nil =>
        simp [pass5] at h
        exact absurd (hasSubNil h) (by simp)
      | cons c rest =>
        by_cases hcond : (c = '-' ∨ c = '*') ∧
            rest.takeWhile (· ≠ '\n') ≠ [] ∧
            (rest.dropWhile (· ≠ '\n')).take 2 = "\n\n".data
        · rw [pass5, dif_pos hcond] at h
          have hxh : (pass5 ((rest.dropWhile (· ≠ '\n')).dropWhile
              (· = '\n'))).head? ≠ some '\n' := by
            rw [pass5_head]
            have := List.head?_dropWhile_not (· = '\n')
              (rest.dropWhile (· ≠ '\n'))
            intro hcon
            rw [hcon] at this
            simp at this
          rcases hasSubConsElim h with ⟨b, hb⟩ | h'
          · have hb' : c :: (rest.takeWhile (· ≠ '\n') ++
                '\n' :: pass5 ((rest.dropWhile (· ≠ '\n')).dropWhile
                  (· = '\n'))) =
                tickChar :: tickChar :: tickChar :: '\n' :: '\n' :: b := by
              simpa using hb
            injection hb' with hb1 _
            rcases hcond.1 with rfl | rfl <;> exact absurd hb1 (by decide)
          · have h'' := hasSubNlNlPatElim (w := "```".data) (by decide) hxh
              (rest.takeWhile (· ≠ '\n'))
              (by
                intro d hd
                have := List.mem_takeWhile_imp hd
                simpa using this)
              (by simpa using h')
            refine ih ((rest.dropWhile (· ≠ '\n')).dropWhile (· = '\n'))
              ?_ ?_ h''
            · have h1l := dropWhileLen (fun x => decide (x = '\n'))
                (rest.dropWhile (· ≠ '\n'))
              have h2l := dropWhileLen (fun x => decide (x ≠ '\n')) rest
              simp at hl
              omega
            · intro hs
              exact hno (hasSubCons c (hasSubDropWhile (hasSubDropWhile hs)))
        · rw [pass5, dif_neg hcond] at h
          rcases hasSubConsElim h with ⟨b, hb⟩ | h'
          · have hb' : c :: pass5 rest =
                tickChar :: tickChar :: tickChar :: '\n' :: '\n' :: b := by
              simpa using hb
            injection hb' with hb1 hb2
            obtain ⟨r'', rfl, hp⟩ := prefReflGen₂ pass5 pass5_head
              (tickChar :: tickChar :: []) htick rest ('\n' :: '\n' :: b) hb2
            obtain ⟨b', rfl⟩ := prefReflGen pass5 pass5_head ['\n', '\n']
              (by
                intro d hd r
                have hdn : d = '\n' := by simpa using hd
                rw [hdn, pass5NlCons]) r'' b hp
            apply hno
            refine ⟨[], b', ?_⟩
            rw [hb1]
            simp
            decide
          · exact ih rest (by simp at hl; omega)
              (fun hs => hno (hasSubCons c hs)) h'
  exact fun l => aux l.length l le_rfl

/-- Preservation: pass 5 creates no double newline followed by a list
marker. -/
theorem pass5PresList (m : Char) (hm : m = '-' ∨ m = '*') : ∀ l : Str,
    ¬ hasSub ('\n' :: '\n' :: m :: ' ' :: []) l →
    ¬ hasSub ('\n' :: '\n' :: m :: ' ' :: []) (pass5 l) := by
  have hmn : m ≠ '\n' := by rcases hm with rfl | rfl <;> decide
  have aux : ∀ (n : Nat) (l : Str), l.length ≤ n →
      ¬ hasSub ('\n' :: '\n' :: m :: ' ' :: []) l →
      ¬ hasSub ('\n' :: '\n' :: m :: ' ' :: []) (pass5 l) := by
    intro n
    induction n with
    | zero =>
      intro l hl _ h
      have : l = [] := List.eq_nil_of_length_eq_zero (by omega)
      subst this
      simp [pass5] at h
      exact absurd (hasSubNil h) (by simp)
    | succ n ih =>
      intro l hl hno h
      cases l with
      | nil =>
        simp [pass5] at h
        exact absurd (hasSubNil h) (by simp)
      | cons c rest =>
        by_cases hcond : (c = '-' ∨ c = '*') ∧
            rest.takeWhile (· ≠ '\n') ≠ [] ∧
            (rest.dropWhile (· ≠ '\n')).take 2 = "\n\n".data
        · rw [pass5, dif_pos hcond] at h
          have hxh : (pass5 ((rest.dropWhile (· ≠ '\n')).dropWhile
              (· = '\n'))).head? ≠ some '\n' := by
            rw [pass5_head]
            have := List.head?_dropWhile_not (· = '\n')
              (rest.dropWhile (· ≠ '\n'))
            intro hcon
            rw [hcon] at this
            simp at this
          rcases hasSubConsElim h with ⟨b, hb⟩ | h'
          · injection hb with hb1 _
            rcases hcond.1 with rfl | rfl <;> exact absurd hb1 (by decide)
          · have h1 : hasSub ('\n' :: '\n' :: m :: ' ' :: [])
                ('\n' :: pass5 ((rest.dropWhile (· ≠ '\n')).dropWhile
                  (· = '\n'))) :=
              hasSubNlStartElim (show ('\n' :: '\n' :: m :: ' ' :: [] : Str).head? = some '\n' from rfl)
                (rest.takeWhile (· ≠ '\n'))
                (by
                  intro d hd
                  have := List.mem_takeWhile_imp hd
                  simpa using this) h'
            rcases hasSubConsElim h1 with ⟨b, hb⟩ | h''
            · injection hb with _ h2
              exact hxh (by rw [h2]; simp)
            · refine ih ((rest.dropWhile (· ≠ '\n')).dropWhile (· = '\n'))
                ?_ ?_ h''
              · have h1l := dropWhileLen (fun x => decide (x = '\n'))
                  (rest.dropWhile (· ≠ '\n'))
                have h2l := dropWhileLen (fun x => decide (x ≠ '\n')) rest
                simp at hl
                omega
              · intro hs
                exact hno (hasSubCons c (hasSubDropWhile (hasSubDropWhile hs)))
        · rw [pass5, dif_neg hcond] at h
          rcases hasSubConsElim h with ⟨b, hb⟩ | h'
          · injection hb with hb1 hb2
            have hh : rest.head? = some '\n' := by
              rw [← pass5_head, hb2]
              simp
            obtain ⟨r', rfl⟩ : ∃ r, rest = '\n' :: r := by
              cases rest with
              | nil => simp at hh
              | cons x xs =>
                simp at hh
                exact ⟨xs, by rw [hh]⟩
            rw [pass5NlCons] at hb2
            injection hb2 with _ hb3
            have hh2 : r'.head? = some m := by
              rw [← pass5_head, hb3]
              simp
            obtain ⟨r'', rfl⟩ : ∃ r, r' = m :: r := by
              cases r' with
              | nil => simp at hh2
              | cons x xs =>
                simp at hh2
                exact ⟨xs, by rw [hh2]⟩
            have hh3 : r''.head? = some ' ' := by
              have := pass5_tail_head m r''
              rw [hb3] at this
              simpa using this.symm
            obtain ⟨r₃, rfl⟩ : ∃ r, r'' = ' ' :: r := by
              cases r'' with
              | nil => simp at hh3
              | cons x xs =>
                simp at hh3
                exact ⟨xs, by rw [hh3]⟩
            apply hno
            refine ⟨[], r₃, ?_⟩
            rw [hb1]
            simp
          · exact ih rest (by simp at hl; omega)
              (fun hs => hno (hasSubCons c hs)) h'
  exact fun l => aux l.length l le_rfl


/-- Membership survives dropping a `dropWhile` prefix. -/
theorem memOfMemDropWhile {c : Char} {p : Char → Bool} {l : Str}
    (h : c ∈ l.dropWhile p) : c ∈ l := by
  rw [← List.takeWhile_append_dropWhile p l]
  exact List.mem_append_right _ h

/-- Membership survives restriction to a `takeWhile` prefix. -/
theorem memOfMemTakeWhile {c : Char} {p : Char → Bool} {l : Str}
    (h : c ∈ l.takeWhile p) : c ∈ l := by
  rw [← List.takeWhile_append_dropWhile p l]
  exact List.mem_append_left _ h

/-- Pass 1 introduces no backslash. -/
theorem pass1NoBS : ∀ l : Str, '\\' ∉ l → '\\' ∉ pass1 l := by
  have aux : ∀ (n : Nat) (l : Str), l.length ≤ n → '\\' ∉ l →
      '\\' ∉ pass1 l := by
    intro n
    induction n with
    | zero =>
      intro l hl _
      have : l = [] := List.eq_nil_of_length_eq_zero (by omega)
      subst this
      simp [pass1]
    | succ n ih =>
      intro l hl hbs
      cases l with
      | nil => simp [pass1]
      | cons c rest =>
        by_cases hcond : (c :: rest).take 3 = "\n\n\n".data
        · have hc : c = '\n' := by
            have := congrArg List.head? hcond
            simpa using this
          subst hc
          rw [pass1, dif_pos hcond,
            List.dropWhile_cons_of_pos (by simp)]
          intro hm
          rcases List.mem_append.mp hm with hm | hm
          · exact absurd hm (by decide)
          · refine ih (rest.dropWhile (· = '\n')) ?_ ?_ hm
            · have := dropWhileLen (fun x => decide (x = '\n')) rest
              simp at hl
              omega
            · intro hx
              exact hbs (List.mem_cons.mpr (Or.inr (memOfMemDropWhile hx)))
        · rw [pass1, dif_neg hcond]
          intro hm
          rcases List.mem_cons.mp hm with heq | hm
          · exact hbs (List.mem_cons.mpr (Or.inl heq))
          · exact ih rest (by simp at hl; omega)
              (fun hx => hbs (List.mem_cons.mpr (Or.inr hx))) hm
  exact fun l => aux l.length l le_rfl

/-- Pass 2 introduces no backslash. -/
theorem pass2NoBS : ∀ l : Str, '\\' ∉ l → '\\' ∉ pass2 l := by
  have aux : ∀ (n : Nat) (l : Str), l.length ≤ n → '\\' ∉ l →
      '\\' ∉ pass2 l := by
    intro n
    induction n with
    | zero =>
      intro l hl _
      have : l = [] := List.eq_nil_of_length_eq_zero (by omega)
      subst this
      simp [pass2]
    | succ n ih =>
      intro l hl hbs
      cases l with
      | nil => simp [pass2]
      | cons c rest =>
        by_cases hcond : (c :: rest).take 2 = "\n\n".data ∧
            ((c :: rest).dropWhile (· = '\n')).take 3 = "```".data
        · have hc : c = '\n' := by
            have := congrArg List.head? hcond.1
            simpa using this
          subst hc
          rw [pass2, dif_pos hcond,
            List.dropWhile_cons_of_pos (by simp)]
          intro hm
          rcases List.mem_cons.mp hm with heq | hm
          · exact absurd heq (by decide)
          · rcases List.mem_append.mp hm with hm | hm
            · exact absurd hm (by decide)
            · refine ih ((rest.dropWhile (· = '\n')).drop 3) ?_ ?_ hm
              · have h1 := dropWhileLen (fun x => decide (x = '\n')) rest
                have h2 := List.length_drop 3 (rest.dropWhile (· = '\n'))
                simp at hl
                omega
              · intro hx
                exact hbs (List.mem_cons.mpr (Or.inr
                  (memOfMemDropWhile (List.drop_subset _ _ hx))))
        · rw [pass2, dif_neg hcond]
          intro hm
          rcases List.mem_cons.mp hm with heq | hm
          · exact hbs (List.mem_cons.mpr (Or.inl heq))
          · exact ih rest (by simp at hl; omega)
              (fun hx => hbs (List.mem_cons.mpr (Or.inr hx))) hm
  exact fun l => aux l.length l le_rfl

/-- Pass 3 introduces no backslash. -/
theorem pass3NoBS : ∀ l : Str, '\\' ∉ l → '\\' ∉ pass3 l := by
  have aux : ∀ (n : Nat) (l : Str), l.length ≤ n → '\\' ∉ l →
      '\\' ∉ pass3 l := by
    intro n
    induction n with
    | zero =>
      intro l hl _
      have : l = [] := List.eq_nil_of_length_eq_zero (by omega)
      subst this
      simp [pass3]
    | succ n ih =>
      intro l hl hbs
      cases l with
      | nil => simp [pass3]
      | cons c rest =>
        by_cases hcond : (c :: rest).take 5 = "```\n\n".data
        · rw [pass3, if_pos hcond]
          intro hm
          rcases List.mem_append.mp hm with hm | hm
          · exact absurd hm (by decide)
          · refine ih ((rest.drop 2).dropWhile (· = '\n')) ?_ ?_ hm
            · have h1 := dropWhileLen (fun x => decide (x = '\n'))
                (rest.drop 2)
              have h2 := List.length_drop 2 rest
              simp at hl
              omega
            · intro hx
              exact hbs (List.mem_cons.mpr (Or.inr
                (List.drop_subset _ _ (memOfMemDropWhile hx))))
        · rw [pass3, if_neg hcond]
          intro hm
          rcases List.mem_cons.mp hm with heq | hm
          · exact hbs (List.mem_cons.mpr (Or.inl heq))
          · exact ih rest (by simp at hl; omega)
              (fun hx => hbs (List.mem_cons.mpr (Or.inr hx))) hm
  exact fun l => aux l.length l le_rfl

/-- Pass 4 introduces no backslash. -/
theorem pass4NoBS : ∀ l : Str, '\\' ∉ l → '\\' ∉ pass4 l := by
  have aux : ∀ (n : Nat) (l : Str), l.length ≤ n → '\\' ∉ l →
      '\\' ∉ pass4 l := by
    intro n
    induction n with
    | zero =>
      intro l hl _
      have : l = [] := List.eq_nil_of_length_eq_zero (by omega)
      subst this
      simp [pass4]
    | succ n ih =>
      intro l hl hbs
      cases l with
      | nil => simp [pass4]
      | cons c rest =>
        by_cases hcond : (c :: rest).take 2 = "\n\n".data ∧
            (((c :: rest).dropWhile (· = '\n')).take 2 = "- ".data ∨
             ((c :: rest).dropWhile (· = '\n')).take 2 = "* ".data)
        · have hc : c = '\n' := by
            have := congrArg List.head? hcond.1
            simpa using this
          subst hc
          rw [pass4, dif_pos hcond,
            List.dropWhile_cons_of_pos (by simp)]
          intro hm
          rcases List.mem_cons.mp hm with heq | hm
          · exact absurd heq (by decide)
          · rcases List.mem_append.mp hm with hm | hm
            · exact hbs (List.mem_cons.mpr (Or.inr
                (memOfMemDropWhile (List.take_subset _ _ hm))))
            · refine ih ((rest.dropWhile (· = '\n')).drop 2) ?_ ?_ hm
              · have h1 := dropWhileLen (fun x => decide (x = '\n')) rest
                have h2 := List.length_drop 2 (rest.dropWhile (· = '\n'))
                simp at hl
                omega
              · intro hx
                exact hbs (List.mem_cons.mpr (Or.inr
                  (memOfMemDropWhile (List.drop_subset _ _ hx))))
        · rw [pass4, dif_neg hcond]
          intro hm
          rcases List.mem_cons.mp hm with heq | hm
          · exact hbs (List.mem_cons.mpr (Or.inl heq))
          · exact ih rest (by simp at hl; omega)
              (fun hx => hbs (List.mem_cons.mpr (Or.inr hx))) hm
  exact fun l => aux l.length l le_rfl

/-- Pass 5 introduces no backslash. -/
theorem pass5NoBS : ∀ l : Str, '\\' ∉ l → '\\' ∉ pass5 l := by
  have aux : ∀ (n : Nat) (l : Str), l.length ≤ n → '\\' ∉ l →
      '\\' ∉ pass5 l := by
    intro n
    induction n with
    | zero =>
      intro l hl _
      have : l = [] := List.eq_nil_of_length_eq_zero (by omega)
      subst this
      simp [pass5]
    | succ n ih =>
      intro l hl hbs
      cases l with
      | nil => simp [pass5]
      | cons c rest =>
        by_cases hcond : (c = '-' ∨ c = '*') ∧
            rest.takeWhile (· ≠ '\n') ≠ [] ∧
            (rest.dropWhile (· ≠ '\n')).take 2 = "\n\n".data
        · rw [pass5, dif_pos hcond]
          intro hm
          rcases List.mem_cons.mp hm with heq | hm
          · exact hbs (List.mem_cons.mpr (Or.inl heq))
          · rcases List.mem_append.mp hm with hm | hm
            · exact hbs (List.mem_cons.mpr (Or.inr (memOfMemTakeWhile hm)))
            · rcases List.mem_cons.mp hm with heq | hm'
              · exact absurd heq (by decide)
              · refine ih ((rest.dropWhile (· ≠ '\n')).dropWhile (· = '\n'))
                  ?_ ?_ hm'
                · have h1 := dropWhileLen (fun x => decide (x = '\n'))
                    (rest.dropWhile (· ≠ '\n'))
                  have h2 := dropWhileLen (fun x => decide (x ≠ '\n')) rest
                  simp at hl
                  omega
                · intro hx
                  exact hbs (List.mem_cons.mpr (Or.inr
                    (memOfMemDropWhile (memOfMemDropWhile hx))))
        · rw [pass5, dif_neg hcond]
          intro hm
          rcases List.mem_cons.mp hm with heq | hm
          · exact hbs (List.mem_cons.mpr (Or.inl heq))
          · exact ih rest (by simp at hl; omega)
              (fun hx => hbs (List.mem_cons.mpr (Or.inr hx))) hm
  exact fun l => aux l.length l le_rfl

/-- Unfolding: an unescaping pass copies a non-backslash head. -/
theorem unescape_cons_ne (t : Char) {c : Char} (hc : c ≠ '\\') (rest : Str) :
    unescape t (c :: rest) = c :: unescape t rest := by
  rw [unescape.eq_def]
  split
  · rename_i h
    exact absurd h (by simp)
  · rename_i heq
    injection heq with h1 _
    exact absurd h1 hc
  · rename_i hg heq
    injection heq with h1 h2
    rw [← h1, ← h2]

/-- An unescaping pass is the identity on backslash-free strings. -/
theorem unescapeId (t : Char) : ∀ l : Str, '\\' ∉ l → unescape t l = l := by
  intro l
  induction l with
  | nil => intro _; rfl
  | cons c rest ih =>
    intro h
    rw [unescape_cons_ne t
        (fun he => h (List.mem_cons.mpr (Or.inl he.symm))) rest,
      ih (fun hm => h (List.mem_cons.mpr (Or.inr hm)))]

/-- C1 counterexample: the Markdown Normalizer is not idempotent. On the
three-character input backslash, backslash, hyphen, one application yields
backslash-hyphen and a second application yields a bare hyphen. -/
theorem c1_counterexample :
    cleanMarkdown (cleanMarkdown ('\\' :: '\\' :: '-' :: [])) ≠
      cleanMarkdown ('\\' :: '\\' :: '-' :: []) := by
  have hstep : ∀ (c : Char), c ≠ '\n' → c ≠ tickChar →
      ¬ (c = '-' ∨ c = '*') →
      ∀ l : Str, pass5 (pass4 (pass3 (pass2 (pass1 (c :: l))))) =
        c :: pass5 (pass4 (pass3 (pass2 (pass1 l)))) := by
    intro c h1 h2 h3 l
    rw [pass1_cons_nonNl h1, pass2_cons_nonNl h1, pass3_cons_ne h2,
      pass4_cons_nonNl h1, pass5_cons_nonMarker h3]
  have hdash : pass5 (pass4 (pass3 (pass2 (pass1 ('-' :: []))))) =
      '-' :: [] := by
    have e1 : pass1 ('-' :: [] : Str) = '-' :: [] := by
      rw [pass1_cons_nonNl (by decide)]
      simp [pass1]
    have e2 : pass2 ('-' :: [] : Str) = '-' :: [] := by
      rw [pass2_cons_nonNl (by decide)]
      simp [pass2]
    have e3 : pass3 ('-' :: [] : Str) = '-' :: [] := by
      rw [pass3_cons_ne (by decide)]
      simp [pass3]
    have e4 : pass4 ('-' :: [] : Str) = '-' :: [] := by
      rw [pass4_cons_nonNl (by decide)]
      simp [pass4]
    have e5 : pass5 ('-' :: [] : Str) = '-' :: [] := by
      rw [pass5, dif_neg (by decide)]
      simp [pass5]
    rw [e1, e2, e3, e4, e5]
  have hA : cleanMarkdown ('\\' :: '\\' :: '-' :: []) =
      '\\' :: '-' :: [] := by
    simp only [cleanMarkdown]
    rw [hstep '\\' (by decide) (by decide) (by decide),
      hstep '\\' (by decide) (by decide) (by decide), hdash]
    rfl
  have hB : cleanMarkdown ('\\' :: '-' :: []) = '-' :: [] := by
    simp only [cleanMarkdown]
    rw [hstep '\\' (by decide) (by decide) (by decide), hdash]
    rfl
  rw [hA, hB]
  decide

/-- C1 (amended): the Markdown Normalizer is idempotent on every input
string that contains no backslash character: the five newline passes reach
a normal form in one application and the unescaping passes are the
identity in the absence of backslashes. -/
theorem c1_idempotent (x : Str) (hx : '\\' ∉ x) :
    cleanMarkdown (cleanMarkdown x) = cleanMarkdown x := by
  have i1 : ¬ hasSub ['\n', '\n', '\n']
      (pass5 (pass4 (pass3 (pass2 (pass1 x))))) :=
    pass5PresNl3 _ (pass4PresNl3 _ (pass3PresNl3 _ (pass2PresNl3 _
      (pass1Est x))))
  have i2 : ¬ hasSub ('\n' :: '\n' :: "```".data)
      (pass5 (pass4 (pass3 (pass2 (pass1 x))))) :=
    pass5PresOpen _ (pass4PresOpen _ (pass3PresOpen _ (pass2Est (pass1 x))))
  have i3 : ¬ hasSub ("```".data ++ '\n' :: '\n' :: [])
      (pass5 (pass4 (pass3 (pass2 (pass1 x))))) :=
    pass5PresClose _ (pass4PresClose _ (pass3Est (pass2 (pass1 x))))
  have i4d : ¬ hasSub ('\n' :: '\n' :: '-' :: ' ' :: [])
      (pass5 (pass4 (pass3 (pass2 (pass1 x))))) :=
    pass5PresList '-' (Or.inl rfl) _ (pass4Est '-' (Or.inl rfl) _)
  have i4s : ¬ hasSub ('\n' :: '\n' :: '*' :: ' ' :: [])
      (pass5 (pass4 (pass3 (pass2 (pass1 x))))) :=
    pass5PresList '*' (Or.inr rfl) _ (pass4Est '*' (Or.inr rfl) _)
  have hbs : '\\' ∉ pass5 (pass4 (pass3 (pass2 (pass1 x)))) :=
    pass5NoBS _ (pass4NoBS _ (pass3NoBS _ (pass2NoBS _ (pass1NoBS x hx))))
  have hclean : cleanMarkdown x =
      pass5 (pass4 (pass3 (pass2 (pass1 x)))) := by
    simp only [cleanMarkdown]
    rw [unescapeId tickChar _ hbs, unescapeId '#' _ hbs,
      unescapeId '-' _ hbs]
  rw [hclean]
  simp only [cleanMarkdown]
  rw [pass1Fix _ i1, pass2Fix _ i2, pass3Fix _ i3, pass4Fix _ i4d i4s,
    pass5Fix _ (fun m w h1 h2 h3 =>
      pass5Est (pass4 (pass3 (pass2 (pass1 x)))) m w h1 h2 h3),
    unescapeId tickChar _ hbs, unescapeId '#' _ hbs, unescapeId '-' _ hbs]

/-- C1 witness: the amended idempotence theorem applied to the concrete
backslash-free input consisting of a letter, three newlines, and a
letter. -/
theorem c1_idempotent_witness :
    '\\' ∉ ('a' :: '\n' :: '\n' :: '\n' :: 'b' :: [] : Str) ∧
      cleanMarkdown (cleanMarkdown
          ('a' :: '\n' :: '\n' :: '\n' :: 'b' :: [])) =
        cleanMarkdown ('a' :: '\n' :: '\n' :: '\n' :: 'b' :: []) :=
  ⟨by decide, c1_idempotent _ (by decide)⟩


/-- Lookup below the fresh counter is unaffected by allocation. -/
theorem lookupInsertLt {h : Heap} {n : HNode} {i : Nat} (hi : i < h.next) :
    lookupH (insertH h n).1 i = lookupH h i := by
  have hd : (decide (((h.next, n)).1 = i)) = false := by
    simp
    omega
  simp only [lookupH, insertH, List.find?, hd]

/-- Lookup at a different identity is unaffected by an update. -/
theorem findMapUpdate (i j : Nat) (n : HNode) (hne : j ≠ i) :
    ∀ es : List (Nat × HNode),
      (es.map (fun e => if e.1 = i then (i, n) else e)).find?
          (fun e => e.1 = j) = es.find? (fun e => e.1 = j) := by
  intro es
  induction es with
  | nil => rfl
  | cons e es ih =>
    simp only [List.map_cons]
    by_cases hei : e.1 = i
    · rw [if_pos hei]
      have h1 : (decide ((i, n).1 = j)) = false := by
        simp
        omega
      have h2 : (decide (e.1 = j)) = false := by
        simp [hei]
        omega
      simp only [List.find?, h1, h2]
      exact ih
    · rw [if_neg hei]
      by_cases hej : e.1 = j
      · have h1 : (decide (e.1 = j)) = true := by simp [hej]
        simp only [List.find?, h1]
      · have h1 : (decide (e.1 = j)) = false := by simp [hej]
        simp only [List.find?, h1]
        exact ih

/-- Heap-level form of `findMapUpdate`. -/
theorem lookupUpdateNe {h : Heap} {i j : Nat} {n : HNode} (hne : j ≠ i) :
    lookupH (updateH h i n) j = lookupH h j := by
  simp only [lookupH, updateH]
  rw [findMapUpdate i j n hne h.entries]

/-- A successful lookup names an entry of the store. -/
theorem lookupMem {h : Heap} {i : Nat} {n : HNode}
    (hl : lookupH h i = some n) : (i, n) ∈ h.entries := by
  simp only [lookupH] at hl
  cases hfind : h.entries.find? (fun e => e.1 = i) with
  | none =>
    rw [hfind] at hl
    simp at hl
  | some e =>
    rw [hfind] at hl
    simp at hl
    have hm := List.mem_of_find?_eq_some hfind
    have hp := List.find?_some hfind
    simp at hp
    have he : e = (i, n) := by
      obtain ⟨e1, e2⟩ := e
      simp at hp hl ⊢
      exact ⟨hp, hl⟩
    rw [he] at hm
    exact hm

/-- Allocation spec: an insertion of a node whose children lie at or above
`bound` preserves old lookups, grows the counter, keeps the store bounded
and segment-closed, and returns a fresh identity. -/
theorem insertHSpec (h : Heap) (nn : HNode) (bound : Nat)
    (hb : heapBounded h) (hbd : bound ≤ h.next)
    (hch : ∀ c ∈ nn.children, bound ≤ c)
    (hseg : segClosed h bound) :
    (∀ id, id < h.next → lookupH (insertH h nn).1 id = lookupH h id) ∧
    h.next ≤ (insertH h nn).1.next ∧
    heapBounded (insertH h nn).1 ∧
    bound ≤ (insertH h nn).2 ∧
    (insertH h nn).2 < (insertH h nn).1.next ∧
    segClosed (insertH h nn).1 bound ∧
    (∀ e ∈ (insertH h nn).1.entries, e ∈ h.entries ∨ h.next ≤ e.1) := by
  refine ⟨fun id hid => lookupInsertLt hid, by simp [insertH], ?_, hbd,
    by simp [insertH], ?_, ?_⟩
  · intro e he
    rcases List.mem_cons.mp he with rfl | he
    · simp [insertH]
    · have := hb e he
      simp [insertH]
      omega
  · intro e he hbe c hc
    rcases List.mem_cons.mp he with rfl | he
    · exact hch c hc
    · exact hseg e he hbe c hc
  · intro e he
    rcases List.mem_cons.mp he with rfl | he
    · right
      simp [insertH]
    · left
      exact he

/-- Clone spec: deep cloning preserves every old lookup, allocates only at
or above the old counter, returns a root at or above the old counter, and
leaves the new segment closed. -/
theorem cloneHSpec : ∀ (fuel : Nat) (h : Heap) (i : Nat), heapBounded h →
    (∀ id, id < h.next → lookupH (cloneH fuel h i).1 id = lookupH h id) ∧
    h.next ≤ (cloneH fuel h i).1.next ∧
    heapBounded (cloneH fuel h i).1 ∧
    h.next ≤ (cloneH fuel h i).2 ∧
    (cloneH fuel h i).2 < (cloneH fuel h i).1.next ∧
    segClosed (cloneH fuel h i).1 h.next ∧
    (∀ e ∈ (cloneH fuel h i).1.entries, e ∈ h.entries ∨ h.next ≤ e.1) := by
  intro fuel
  induction fuel with
  | zero =>
    intro h i hb
    have hins := insertHSpec h emptyHNode h.next hb le_rfl
      (by intro c hc; simp [emptyHNode] at hc)
      (fun e he hbe c hc => absurd (hb e he) (by omega))
    simpa only [cloneH] using hins
  | succ f ihf =>
    have hkids : ∀ (is : List Nat) (h : Heap), heapBounded h →
        (∀ id, id < h.next →
          lookupH (cloneKidsH f h is).1 id = lookupH h id) ∧
        h.next ≤ (cloneKidsH f h is).1.next ∧
        heapBounded (cloneKidsH f h is).1 ∧
        (∀ j ∈ (cloneKidsH f h is).2,
          h.next ≤ j ∧ j < (cloneKidsH f h is).1.next) ∧
        segClosed (cloneKidsH f h is).1 h.next ∧
        (∀ e ∈ (cloneKidsH f h is).1.entries,
          e ∈ h.entries ∨ h.next ≤ e.1) := by
      intro is
      induction is with
      | nil =>
        intro h hb
        have heq1 : (cloneKidsH f h ([] : List Nat)).1 = h := by
          simp only [cloneKidsH]
        have heq2 : (cloneKidsH f h ([] : List Nat)).2 = [] := by
          simp only [cloneKidsH]
        rw [heq1, heq2]
        refine ⟨fun id _ => rfl, le_rfl, hb, by simp, ?_,
          fun e he => Or.inl he⟩
        intro e he hbe c hc
        exact absurd (hb e he) (by omega)
      | cons i is ihk =>
        intro h hb
        obtain ⟨p1, p2, p3, p4, p5, p6, p7⟩ := ihf h i hb
        obtain ⟨q1, q2, q3, q4, q5, q6⟩ := ihk (cloneH f h i).1 p3
        have heq1 : (cloneKidsH f h (i :: is)).1 =
            (cloneKidsH f (cloneH f h i).1 is).1 := by
          simp only [cloneKidsH]
        have heq2 : (cloneKidsH f h (i :: is)).2 =
            (cloneH f h i).2 :: (cloneKidsH f (cloneH f h i).1 is).2 := by
          simp only [cloneKidsH]
        rw [heq1, heq2]
        refine ⟨?_, by omega, q3, ?_, ?_, ?_⟩
        · intro id hid
          rw [q1 id (by omega), p1 id hid]
        · intro j hj
          rcases List.mem_cons.mp hj with rfl | hj
          · exact ⟨p4, by omega⟩
          · have := q4 j hj
            exact ⟨by omega, this.2⟩
        · intro e he hbe c hc
          rcases q6 e he with he' | he'
          · exact p6 e he' hbe c hc
          · have := q5 e he he' c hc
            omega
        · intro e he
          rcases q6 e he with he' | he'
          · rcases p7 e he' with he'' | he''
            · exact Or.inl he''
            · exact Or.inr he''
          · exact Or.inr (by omega)
    intro h i hb
    cases hlk : lookupH h i with
    | none =>
      have hins := insertHSpec h emptyHNode h.next hb le_rfl
        (by intro c hc; simp [emptyHNode] at hc)
        (fun e he hbe c hc => absurd (hb e he) (by omega))
      have heq : cloneH (f + 1) h i = insertH h emptyHNode := by
        simp only [cloneH, hlk]
      rw [heq]
      exact hins
    | some n =>
      obtain ⟨k1, k2, k3, k4, k5, k6⟩ := hkids n.children h hb
      have hins := insertHSpec (cloneKidsH f h n.children).1
        { n with children := (cloneKidsH f h n.children).2 } h.next k3
        k2 (by intro c hc; exact (k4 c hc).1)
        k5
      have heq : cloneH (f + 1) h i =
          insertH (cloneKidsH f h n.children).1
            { n with children := (cloneKidsH f h n.children).2 } := by
        simp only [cloneH, hlk]
      rw [heq]
      obtain ⟨i1, i2, i3, i4, i5, i6, i7⟩ := hins
      refine ⟨?_, by omega, i3, i4, i5, i6, ?_⟩
      · intro id hid
        rw [i1 id (by omega), k1 id hid]
      · intro e he
        rcases i7 e he with he' | he'
        · rcases k6 e he' with he'' | he''
          · exact Or.inl he''
          · exact Or.inr he''
        · exact Or.inr (by omega)

/-- Prune spec: one selector round of the removal loop, started on a
worklist inside the closed segment, changes no lookup below the segment
and keeps the segment closed. -/
theorem pruneHSpec (s : Sel) (bound : Nat) : ∀ (fuel : Nat) (h : Heap)
    (ws : List Nat), segClosed h bound → (∀ i ∈ ws, bound ≤ i) →
    (∀ id, id < bound → lookupH (pruneH fuel s h ws) id = lookupH h id) ∧
    segClosed (pruneH fuel s h ws) bound := by
  intro fuel
  induction fuel with
  | zero =>
    intro h ws hseg _
    exact ⟨fun id _ => rfl, hseg⟩
  | succ f ih =>
    intro h ws hseg hws
    cases ws with
    | nil => exact ⟨fun id _ => rfl, hseg⟩
    | cons i is =>
      cases hlk : lookupH h i with
      | none =>
        have heq : pruneH (f + 1) s h (i :: is) = pruneH f s h is := by
          simp only [pruneH, hlk]
        rw [heq]
        exact ih h is hseg (fun j hj => hws j (List.mem_cons.mpr (Or.inr hj)))
      | some n =>
        have hbi : bound ≤ i := hws i (List.mem_cons.mpr (Or.inl rfl))
        have hch : ∀ c ∈ n.children, bound ≤ c :=
          hseg (i, n) (lookupMem hlk) hbi
        have heq : pruneH (f + 1) s h (i :: is) =
            pruneH f s
              (updateH h i
                { n with children :=
                    n.children.filter (fun c => ! matchesIdH h s c) })
              (n.children ++ is) := by
          simp only [pruneH, hlk]
        have hseg₁ : segClosed
            (updateH h i
              { n with children :=
                  n.children.filter (fun c => ! matchesIdH h s c) })
            bound := by
          intro e he hbe c hc
          rcases List.mem_map.mp he with ⟨e₀, he₀, heq₀⟩
          by_cases h0 : e₀.1 = i
          · rw [if_pos h0] at heq₀
            subst heq₀
            exact hch c (List.mem_filter.mp hc).1
          · rw [if_neg h0] at heq₀
            subst heq₀
            exact hseg e₀ he₀ hbe c hc
        have hws₁ : ∀ j ∈ n.children ++ is, bound ≤ j := by
          intro j hj
          rcases List.mem_append.mp hj with hj | hj
          · exact hch j hj
          · exact hws j (List.mem_cons.mpr (Or.inr hj))
        have hrec := ih
          (updateH h i
            { n with children :=
                n.children.filter (fun c => ! matchesIdH h s c) })
          (n.children ++ is) hseg₁ hws₁
        rw [heq]
        refine ⟨?_, hrec.2⟩
        intro id hid
        rw [hrec.1 id hid, lookupUpdateNe (by omega)]

/-- Frame spec of the whole removal loop. -/
theorem removeBoilerplateHSpec (fuel bound root : Nat) :
    ∀ (sels : List Sel) (h : Heap), segClosed h bound → bound ≤ root →
    (∀ id, id < bound →
      lookupH (sels.foldl (fun acc s => pruneH fuel s acc [root]) h) id =
        lookupH h id) ∧
    segClosed (sels.foldl (fun acc s => pruneH fuel s acc [root]) h)
      bound := by
  intro sels
  induction sels with
  | nil =>
    intro h hseg _
    exact ⟨fun id _ => rfl, hseg⟩
  | cons s sels ih =>
    intro h hseg hroot
    have hp := pruneHSpec s bound fuel h [root] hseg (by
      intro j hj
      rw [List.mem_singleton] at hj
      rw [hj]
      exact hroot)
    have hrec := ih (pruneH fuel s h [root]) hp.2 hroot
    constructor
    · intro id hid
      rw [List.foldl_cons, hrec.1 id hid, hp.1 id hid]
    · rw [List.foldl_cons]
      exact hrec.2

/-- C8: boilerplate removal mutates only the deep clone of the selected
content region.  In the heap model of index.js lines 152-172, for every
well-formed store, after cloning the region and running the removal loop
on the clone, the node at every identity that existed before the clone --
in particular every node of the original document tree, including the
selected region -- is unchanged; all removals act on the freshly
allocated clone segment. -/
theorem c8_clone_frame (fuel : Nat) (h : Heap) (region : Nat)
    (hb : heapBounded h) :
    ∀ id, id < h.next →
      lookupH (extractCloneH fuel h region).1 id = lookupH h id := by
  intro id hid
  obtain ⟨f1, f2, f3, f4, f5, f6, f7⟩ := cloneHSpec fuel h region hb
  have hrb := removeBoilerplateHSpec fuel h.next (cloneH fuel h region).2
    elementsToRemove (cloneH fuel h region).1 f6 f4
  show lookupH (removeBoilerplateH fuel (cloneH fuel h region).1
      (cloneH fuel h region).2) id = lookupH h id
  rw [show removeBoilerplateH fuel (cloneH fuel h region).1
      (cloneH fuel h region).2 = elementsToRemove.foldl
        (fun acc s => pruneH fuel s acc [(cloneH fuel h region).2])
        (cloneH fuel h region).1 from rfl]
  rw [hrb.1 id hid, f1 id hid]

/-- C8 witness: the frame theorem applied to a concrete two-node store (a
body containing a nav element) with its body as the region. -/
theorem c8_clone_frame_witness :
    heapBounded (⟨[(0, ⟨"body", "", [], "", [1]⟩),
        (1, ⟨"nav", "", [], "", []⟩)], 2⟩ : Heap) ∧
      (1 : Nat) < (⟨[(0, ⟨"body", "", [], "", [1]⟩),
        (1, ⟨"nav", "", [], "", []⟩)], 2⟩ : Heap).next ∧
      lookupH (extractCloneH 4 ⟨[(0, ⟨"body", "", [], "", [1]⟩),
        (1, ⟨"nav", "", [], "", []⟩)], 2⟩ 0).1 1 =
        lookupH (⟨[(0, ⟨"body", "", [], "", [1]⟩),
          (1, ⟨"nav", "", [], "", []⟩)], 2⟩ : Heap) 1 :=
  ⟨by unfold heapBounded; decide, by decide,
    c8_clone_frame 4 _ 0 (by unfold heapBounded; decide) 1 (by decide)⟩


end Page2Md

